import Mathlib

/-!
Verification of the Azul synchronization engine (TypeScript sources:
`src/fs/fileWriter.ts`, `src/treeManager.ts` (bundled at the end of
`src/cli.ts`), `src/pack.ts`, `src/sourcemap/propertyLoader.ts`).

The TypeScript code is shallowly embedded:

* Filesystem paths are modelled as canonical lists of segments
  (`Path := List String`).  `path.join` is list append, `path.dirname`
  is `List.dropLast`, and `path.resolve` is the identity on the
  canonical absolute paths the programs manipulate.
* JavaScript `Map`s (which preserve insertion order: `set` replaces an
  existing key in place and appends new keys) are modelled as
  association lists with exactly those operations.
* JavaScript objects linked by references (tree nodes holding child and
  parent object pointers) are modelled arena-style: the node table is
  the arena, and `children` / `parent` store guids which are looked up
  in the table.  This matches the code on the states the daemon
  actually builds, where every referenced node is in the table.
* Mutation is modelled by explicit state passing; `try`/`catch` around
  filesystem calls is modelled by `Option`/flagged results.
-/

namespace Azul

/-- A canonical absolute filesystem path, one list entry per segment. -/
abbrev Path := List String

section AList

variable {κ : Type} {β : Type} [DecidableEq κ]

/-- `Map.get` on an insertion-ordered JavaScript map. -/
def alistLookup : List (κ × β) → κ → Option β
  | [], _ => none
  | (k, v) :: rest, key => if k = key then some v else alistLookup rest key

/-- `Map.set`: replace the value of an existing key in place, otherwise
append the new entry at the end (JavaScript insertion order). -/
def alistSet : List (κ × β) → κ → β → List (κ × β)
  | [], key, v => [(key, v)]
  | (k, w) :: rest, key, v =>
    if k = key then (k, v) :: rest else (k, w) :: alistSet rest key v

/-- `Map.delete`: remove the entry of a key if present. -/
def alistErase : List (κ × β) → κ → List (κ × β)
  | [], _ => []
  | (k, v) :: rest, key =>
    if k = key then rest else (k, v) :: alistErase rest key

theorem alistLookup_set_self (l : List (κ × β)) (k : κ) (v : β) :
    alistLookup (alistSet l k v) k = some v := by
  induction l with
  | nil => simp [alistSet, alistLookup]
  | cons hd tl ih =>
    obtain ⟨k₀, v₀⟩ := hd
    by_cases h : k₀ = k <;> simp [alistSet, alistLookup, h, ih]

theorem alistLookup_set_other (l : List (κ × β)) (k k' : κ) (v : β)
    (h : k ≠ k') : alistLookup (alistSet l k v) k' = alistLookup l k' := by
  induction l with
  | nil => simp [alistSet, alistLookup, h]
  | cons hd tl ih =>
    obtain ⟨k₀, v₀⟩ := hd
    by_cases h₀ : k₀ = k
    · subst h₀; simp [alistSet, alistLookup, h]
    · simp [alistSet, alistLookup, h₀, ih]

theorem alistLookup_eq_none_of_not_mem (l : List (κ × β)) (k : κ)
    (h : k ∉ l.map Prod.fst) : alistLookup l k = none := by
  induction l with
  | nil => simp [alistLookup]
  | cons hd tl ih =>
    obtain ⟨k₀, v₀⟩ := hd
    simp only [List.map_cons, List.mem_cons] at h
    push_neg at h
    have hne : ¬ k₀ = k := fun hh => h.1 hh.symm
    simp only [alistLookup, if_neg hne, ih h.2]

theorem alistLookup_erase_self (l : List (κ × β)) (k : κ)
    (hnd : (l.map Prod.fst).Nodup) : alistLookup (alistErase l k) k = none := by
  induction l with
  | nil => simp [alistErase, alistLookup]
  | cons hd tl ih =>
    obtain ⟨k₀, v₀⟩ := hd
    simp only [List.map_cons, List.nodup_cons] at hnd
    by_cases h : k₀ = k
    · subst h
      simp only [alistErase, if_pos rfl]
      exact alistLookup_eq_none_of_not_mem tl k₀ hnd.1
    · simp only [alistErase, if_neg h, alistLookup, if_neg h]
      exact ih hnd.2

theorem alistLookup_erase_other (l : List (κ × β)) (k k' : κ) (h : k ≠ k') :
    alistLookup (alistErase l k) k' = alistLookup l k' := by
  induction l with
  | nil => simp [alistErase]
  | cons hd tl ih =>
    obtain ⟨k₀, v₀⟩ := hd
    by_cases h₀ : k₀ = k
    · subst h₀
      have hk' : k₀ ≠ k' := h
      simp [alistErase, alistLookup, hk']
    · simp [alistErase, alistLookup, h₀, ih]

theorem alistErase_length_lt (l : List (κ × β)) (k : κ) (v : β)
    (h : alistLookup l k = some v) : (alistErase l k).length < l.length := by
  induction l with
  | nil => simp [alistLookup] at h
  | cons hd tl ih =>
    obtain ⟨k₀, v₀⟩ := hd
    by_cases h₀ : k₀ = k
    · simp [alistErase, h₀]
    · simp only [alistLookup, if_neg h₀] at h
      simpa [alistErase, h₀] using ih h

theorem alistLookup_mem {l : List (κ × β)} {k : κ} {v : β}
    (h : alistLookup l k = some v) : (k, v) ∈ l := by
  induction l with
  | nil => simp [alistLookup] at h
  | cons hd tl ih =>
    obtain ⟨k₀, v₀⟩ := hd
    by_cases h₀ : k₀ = k
    · subst h₀
      have hv : v₀ = v := by simpa [alistLookup] using h
      subst hv
      exact List.mem_cons_self _ _
    · simp only [alistLookup, if_neg h₀] at h
      exact List.mem_cons_of_mem _ (ih h)

end AList

/-! ## Data model (`treeManager.ts`) -/

/-- `TreeNode` from `treeManager.ts`, arena-encoded.  `parentGuid` is
`Option (Option String)` to keep the three JavaScript states apart
(`none` = property absent / `undefined`, `some none` = `null`,
`some (some g)` = a guid).  `children` holds the guids of the child
nodes (the keys of the JavaScript `Map<string, TreeNode>`), `parent`
the guid of the parent object reference. -/
structure TreeNode where
  guid : String
  className : String
  name : String
  path : Path
  parentGuid : Option (Option String) := none
  source : Option String := none
  children : List String := []
  parent : Option String := none
deriving DecidableEq, Repr

/-- `isScriptNode` (identical in `fileWriter.ts` and `treeManager.ts`). -/
def isScriptNode (node : TreeNode) : Bool :=
  node.className = "Script" || node.className = "LocalScript" ||
    node.className = "ModuleScript"

/-! ## File writer (`fs/fileWriter.ts`) -/

/-- The configuration fields read by the file writer.  `scriptExtension`
is read by `getScriptFileName` and `getFilePath`; `suffixModuleScripts`
is the configuration key the specification describes (the user config
loader is outside the provided sources, so the flag is carried here so
that its effect, if any, on file names can be stated). -/
structure Config where
  scriptExtension : String
  suffixModuleScripts : Bool
deriving DecidableEq, Repr

/-- `FileMapping` from `fileWriter.ts` (file paths in canonical
segment form). -/
structure FileMapping where
  guid : String
  filePath : Path
  className : String
deriving DecidableEq, Repr

/-- The filesystem: regular files with contents, plus the set of
existing directories.  `writeFileSync` requires the parent directory to
exist (Node.js throws `ENOENT` otherwise). -/
structure FS where
  files : List (Path × String) := []
  dirs : List Path := []
deriving DecidableEq, Repr

/-- `fs.existsSync` on a file path. -/
def FS.fileExists (fs : FS) (p : Path) : Bool :=
  (alistLookup fs.files p).isSome

/-- `fs.existsSync` on a directory path. -/
def FS.dirExists (fs : FS) (p : Path) : Bool :=
  fs.dirs.contains p

/-- `fs.mkdirSync(p, recursive)`: create the directory and all its
missing ancestors.  (`List.inits` enumerates the ancestor chain.) -/
def FS.mkdirRecursive (fs : FS) (p : Path) : FS :=
  { fs with dirs :=
      (p.inits.foldl (fun ds d => if ds.contains d then ds else ds ++ [d])
        fs.dirs) }

/-- `fs.unlinkSync`. -/
def FS.unlink (fs : FS) (p : Path) : FS :=
  { fs with files := alistErase fs.files p }

/-- `fs.rmdirSync` (the code only calls it on empty directories). -/
def FS.rmdir (fs : FS) (p : Path) : FS :=
  { fs with dirs := fs.dirs.filter (· ≠ p) }

/-- `fs.readdirSync(d).length`: number of files and immediate
subdirectories of `d`. -/
def FS.entryCount (fs : FS) (d : Path) : Nat :=
  (fs.files.filter (fun f => f.1.dropLast = d)).length +
    (fs.dirs.filter (fun e => e ≠ [] && e.dropLast = d && e ≠ d)).length

/-- `fs.writeFileSync(p, content)`: succeeds (like Node.js) only when
the parent directory exists; `none` models the thrown exception. -/
def FS.writeFile (fs : FS) (p : Path) (content : String) : Option FS :=
  if fs.dirExists p.dropLast then
    some { fs with files := alistSet fs.files p content }
  else
    none

/-- `FileWriter` state: base directory, guid → mapping table, and the
filesystem it mutates. -/
structure FileWriter where
  baseDir : Path
  fileMappings : List (String × FileMapping) := []
  fs : FS := {}
deriving DecidableEq, Repr

/-- The character replacement of `sanitizeName`. -/
def sanitizeChar (c : Char) : Char :=
  if c = '<' || c = '>' || c = ':' || c = '"' || c = '|' || c = '?' || c = '*'
  then '_' else c

/-- `sanitizeName`: replace the characters `<>:"|?*` by underscores
(a character-wise map, written over the string's character list). -/
def sanitizeName (name : String) : String :=
  ⟨name.data.map sanitizeChar⟩

/-- `getScriptFileName`: the code compares `node.name` with
`node.path[node.path.length - 1]`, i.e. with the **last** segment of
the node's path (in JavaScript an empty path yields `undefined`, which
never equals the string `node.name`). -/
def getScriptFileName (cfg : Config) (node : TreeNode) : String :=
  match node.path.getLast? with
  | some parentName =>
    if node.name = parentName then "init" ++ cfg.scriptExtension
    else sanitizeName node.name ++ cfg.scriptExtension
  | none => sanitizeName node.name ++ cfg.scriptExtension

/-- `findGuidByFilePath`: first mapping whose path equals the argument. -/
def findGuidByFilePath (mappings : List (String × FileMapping))
    (filePath : Path) : Option String :=
  match mappings with
  | [] => none
  | (guid, m) :: rest =>
    if m.filePath = filePath then some guid
    else findGuidByFilePath rest filePath

/-- `getFilePath`: sanitize every segment of `node.path`, append the
script file name for script nodes, and disambiguate with
`__` + the first 8 characters of the guid when the desired path is
already owned by a different guid. -/
def getFilePath (cfg : Config) (fw : FileWriter) (node : TreeNode) : Path :=
  let parts := node.path.map sanitizeName
  let parts := if isScriptNode node then parts ++ [getScriptFileName cfg node]
    else parts
  let desiredPath := fw.baseDir ++ parts
  match findGuidByFilePath fw.fileMappings desiredPath with
  | some collision =>
    if collision ≠ node.guid then
      let uniqueName :=
        sanitizeName node.name ++ "__" ++ node.guid.take 8 ++ cfg.scriptExtension
      fw.baseDir ++ (parts.dropLast ++ [uniqueName])
    else desiredPath
  | none => desiredPath

/-- `ensureDirectory`. -/
def ensureDirectory (fs : FS) (dirPath : Path) : FS :=
  if fs.dirExists dirPath then fs else fs.mkdirRecursive dirPath

/-- The loop of `cleanupParentsIfEmpty`, structurally recursive on the
length of the current directory path, which the walk shortens by one
segment per step (so a fuel of `startDir.length` is never exhausted,
and at length zero both conditions of the loop header are false). -/
def cleanupGo (fuel : Nat) (fs : FS) (current root : Path) : Bool × FS :=
  match fuel with
  | 0 => (false, fs)
  | f + 1 =>
    if root.isPrefixOf current ∧ current ≠ root then
      if fs.dirExists current then
        if fs.entryCount current = 0 then
          cleanupGo f (fs.rmdir current) current.dropLast root
        else (false, fs)
      else (true, fs)
    else (false, fs)

/-- `cleanupParentsIfEmpty`: walk up from `startDir`, removing empty
directories, until the base directory (or a non-empty directory) is
reached.  When the walk reaches a directory that no longer exists, the
code takes `entries = []` and then calls `fs.rmdirSync` on the missing
directory, which throws: the `Bool` component records that exception
(propagated to `writeScript`'s `catch`). -/
def cleanupParentsIfEmpty (fs : FS) (startDir root : Path) : Bool × FS :=
  cleanupGo startDir.length fs startDir root

/-- `writeScript`: the early guard (`!isScriptNode || !node.source`,
where the empty string is falsy) returns `null` untouched; otherwise
the target path is computed, its directory ensured, a stale file at the
guid's previous path unlinked with its empty parents pruned, and the
new file written.  A thrown filesystem exception is caught: the
function returns `null` and the mapping is left unchanged (mutations
already performed on the filesystem persist). -/
def writeScript (cfg : Config) (fw : FileWriter) (node : TreeNode) :
    Option Path × FileWriter :=
  if ¬ isScriptNode node ∨ node.source = none ∨ node.source = some "" then
    (none, fw)
  else
    let existingMapping := alistLookup fw.fileMappings node.guid
    let filePath := getFilePath cfg fw node
    let dirPath := filePath.dropLast
    let fs₁ := ensureDirectory fw.fs dirPath
    let cleaned : Bool × FS :=
      match existingMapping with
      | some m =>
        if m.filePath ≠ filePath then
          if fs₁.fileExists m.filePath then
            cleanupParentsIfEmpty (fs₁.unlink m.filePath) m.filePath.dropLast
              fw.baseDir
          else (false, fs₁)
        else (false, fs₁)
      | none => (false, fs₁)
    if cleaned.1 then (none, { fw with fs := cleaned.2 })
    else
      match cleaned.2.writeFile filePath ((node.source).getD "") with
      | some fs₂ =>
        (some filePath,
          { fw with
            fs := fs₂
            fileMappings := alistSet fw.fileMappings node.guid
              { guid := node.guid, filePath := filePath
                className := node.className } })
      | none => (none, { fw with fs := cleaned.2 })

/-- `deleteFilePathInternal`: unlink the file if present, then drop the
first mapping that points at the (already canonical) path. -/
def deleteFilePathInternal (fw : FileWriter) (filePath : Path) :
    Bool × FileWriter :=
  let fs₁ := if fw.fs.fileExists filePath then fw.fs.unlink filePath else fw.fs
  let mappings :=
    match (fw.fileMappings.find? fun e => e.2.filePath = filePath) with
    | some e => alistErase fw.fileMappings e.1
    | none => fw.fileMappings
  (true, { fw with fs := fs₁, fileMappings := mappings })

/-- `deleteScript`: look the guid up; delete the mapped file, then
delete the guid's own mapping. -/
def deleteScript (fw : FileWriter) (guid : String) : Bool × FileWriter :=
  match alistLookup fw.fileMappings guid with
  | none => (false, fw)
  | some m =>
    let r := deleteFilePathInternal fw m.filePath
    (r.1, { r.2 with fileMappings := alistErase r.2.fileMappings guid })

/-- `deleteFilePath` (public wrapper). -/
def deleteFilePath (fw : FileWriter) (filePath : Path) : Bool × FileWriter :=
  deleteFilePathInternal fw filePath

/-! ## Tree manager (`treeManager.ts`) -/

/-- JSON objects attached as `properties` / `attributes` payloads; their
internal structure is irrelevant to the verified claims, so they are
carried as association lists of rendered values. -/
abbrev PropMap := List (String × String)

/-- `InstanceData` from `ipc/messages.ts` as the tree manager and the
pack/build commands consume it. -/
structure InstanceData where
  guid : String
  className : String
  name : String
  path : Path
  parentGuid : Option (Option String) := none
  source : Option String := none
  properties : Option PropMap := none
  attributes : Option PropMap := none
deriving DecidableEq, Repr

/-- The `TreeManager` state: the node table (`nodes`), the path index
(`pathIndex`, keyed by the node path — the code joins the segments with
a NUL separator, which is injective on segment lists, so the key is kept
as the list itself; buckets hold the guids of their member nodes), and
the lazily created synthetic root. -/
structure TreeManager where
  nodes : List (String × TreeNode) := []
  pathIndex : List (Path × List String) := []
  root : Option String := none
deriving DecidableEq, Repr

/-- `Set.add` on a path-index bucket (a member at most once, insertion
order kept). -/
def bucketAdd (b : List String) (g : String) : List String :=
  if b.contains g then b else b ++ [g]

/-- `addToPathIndex`, keyed by the node's current path. -/
def idxAdd (idx : List (Path × List String)) (key : Path) (g : String) :
    List (Path × List String) :=
  alistSet idx key (bucketAdd ((alistLookup idx key).getD []) g)

/-- `removeFromPathIndex`: drop the guid from its bucket, and drop the
bucket when it becomes empty. -/
def idxRemove (idx : List (Path × List String)) (key : Path) (g : String) :
    List (Path × List String) :=
  match alistLookup idx key with
  | none => idx
  | some bucket =>
    if bucket.erase g = [] then alistErase idx key
    else alistSet idx key (bucket.erase g)

/-- `addToPathIndex` on the manager. -/
def addToPathIndex (tm : TreeManager) (node : TreeNode) : TreeManager :=
  { tm with pathIndex := idxAdd tm.pathIndex node.path node.guid }

/-- `removeFromPathIndex` on the manager. -/
def removeFromPathIndex (tm : TreeManager) (node : TreeNode) : TreeManager :=
  { tm with pathIndex := idxRemove tm.pathIndex node.path node.guid }

/-- `findNodeByPath`: no bucket or an empty bucket gives no result, a
one-element bucket gives its node (identified by guid), an ambiguous
bucket deliberately gives no result. -/
def findNodeByPath (tm : TreeManager) (path : Path) : Option String :=
  match alistLookup tm.pathIndex path with
  | none => none
  | some bucket =>
    match bucket with
    | [] => none
    | [g] => some g
    | _ => none

/-- `pathsEqual` (length check plus pointwise comparison). -/
def pathsEqual (a b : Path) : Bool :=
  a.length = b.length && (a.zip b).all fun p => p.1 = p.2

/-- `registerSubtree` / `unregisterSubtree`: a worklist over the object
graph that adds (or removes) every visited node to/from the path index at
its current path.  The list models the JavaScript stack with its top at
the head, so pushed children are prepended in reverse.  The stack holds
guids resolved through the node table (the code holds object references;
the two agree on states whose children are all in the table).  The code's
loop terminates only on acyclic graphs; `fuel` bounds the iterations, and
the callers pass enough for any state whose nodes are each enqueued at
most once. -/
def indexWalk (remove : Bool) (fuel : Nat) (stack : List String)
    (nodes : List (String × TreeNode)) (idx : List (Path × List String)) :
    List (Path × List String) :=
  match fuel, stack with
  | 0, _ => idx
  | _, [] => idx
  | f + 1, g :: rest =>
    match alistLookup nodes g with
    | none => indexWalk remove f rest nodes idx
    | some n =>
      indexWalk remove f (n.children.reverse ++ rest) nodes
        (if remove then idxRemove idx n.path n.guid else idxAdd idx n.path n.guid)

/-- `recalculateChildPaths`: breadth-first queue over the starting node's
children; every dequeued child's path becomes its parent's current path
plus its own name, and its children are enqueued.  The parent pointer is
resolved through the table (`child.parent!` in the code; they agree on
the well-formed states, and when the parent is missing the path is left
as it is).  `fuel` bounds the iterations as in `indexWalk`. -/
def recalcStep (nodes : List (String × TreeNode)) (c : String)
    (cn : TreeNode) : List (String × TreeNode) :=
  match cn.parent with
  | some pg =>
    match alistLookup nodes pg with
    | some pn => alistSet nodes c { cn with path := pn.path ++ [cn.name] }
    | none => nodes
  | none => nodes

def recalcChildPaths (fuel : Nat) (queue : List String)
    (nodes : List (String × TreeNode)) : List (String × TreeNode) :=
  match fuel, queue with
  | 0, _ => nodes
  | _, [] => nodes
  | f + 1, c :: rest =>
    match alistLookup nodes c with
    | none => recalcChildPaths f rest nodes
    | some cn => recalcChildPaths f (rest ++ cn.children) (recalcStep nodes c cn)

/-- `Map.set` on a `children` map: adding a guid that is already a key
replaces its (identical) node and keeps the order. -/
def childAdd (cs : List String) (g : String) : List String :=
  if cs.contains g then cs else cs ++ [g]

/-- The synthetic root node created lazily by the tree manager. -/
def syntheticRoot : TreeNode :=
  { guid := "root", className := "DataModel", name := "game", path := []
    parentGuid := some none, children := [], parent := none }

/-- `reparentNode`: detach from the old parent, resolve the new parent
(the explicit `parentGuid` if it is a truthy string whose node exists;
else the synthetic root for service paths, created on first need; else a
path-index lookup of the parent path), and attach. -/
def rpDetach (tm : TreeManager) (guid : String) (node : TreeNode) :
    TreeManager :=
  match node.parent with
  | some opg =>
    match alistLookup tm.nodes opg with
    | some op =>
      { tm with nodes :=
          (alistSet tm.nodes opg
            { op with children := op.children.erase guid }) }
    | none => tm
  | none => tm

def rpViaGuid (tm₁ : TreeManager) (parentGuid : Option String) :
    Option String :=
  match parentGuid with
  | some pg =>
    if pg ≠ "" ∧ (alistLookup tm₁.nodes pg).isSome then some pg else none
  | none => none

def rpResolve (tm₁ : TreeManager) (path : Path)
    (parentGuid : Option String) : TreeManager × Option String :=
  match rpViaGuid tm₁ parentGuid with
  | some pg => (tm₁, some pg)
  | none =>
    if path.length = 1 then
      match tm₁.root with
      | some r => (tm₁, some r)
      | none =>
        (addToPathIndex
          { tm₁ with
            nodes := (alistSet tm₁.nodes "root" syntheticRoot)
            root := some "root" } syntheticRoot, some "root")
    else (tm₁, findNodeByPath tm₁ path.dropLast)

def rpAttach (tm₂ : TreeManager) (guid pg : String) : TreeManager :=
  match alistLookup tm₂.nodes pg with
  | none => tm₂
  | some p =>
    match alistLookup
        (alistSet tm₂.nodes pg { p with children := childAdd p.children guid })
        guid with
    | none =>
      { tm₂ with nodes :=
          (alistSet tm₂.nodes pg
            { p with children := childAdd p.children guid }) }
    | some nd =>
      { tm₂ with nodes :=
          (alistSet
            (alistSet tm₂.nodes pg
              { p with children := childAdd p.children guid })
            guid { nd with parent := some pg, parentGuid := some (some pg) }) }

def reparentNode (tm : TreeManager) (guid : String) (path : Path)
    (parentGuid : Option String) : TreeManager :=
  match alistLookup tm.nodes guid with
  | none => tm
  | some node =>
    match rpResolve (rpDetach tm guid node) path parentGuid with
    | (tm₂, none) => tm₂
    | (tm₂, some pg) => rpAttach tm₂ guid pg

/-- The result record `updateInstance` returns. -/
structure UpdateInfo where
  node : TreeNode
  pathChanged : Bool
  nameChanged : Bool
  parentChanged : Bool
  isNew : Bool
  prevPath : Option Path := none
  prevName : Option String := none
deriving DecidableEq, Repr

/-- The fuel passed to the worklists inside `updateInstance`: in any
state where each node is enqueued at most once, the walks take at most
one iteration per table entry plus the start. -/
def tmFuel (tm : TreeManager) : Nat :=
  tm.nodes.length + 1

/-- `updateInstance`: upsert keyed by guid.  For an existing node the
diff against the current state is computed, the subtree is unregistered
from the path index when the path changed, the fields are replaced in
place (`source` only when the message carries one), and on any of
path/name/parent changing the node is re-parented, descendant paths are
recalculated and the subtree re-registered.  For an unseen guid a fresh
node is created, parented and registered. -/
def updateInstance (tm : TreeManager) (inst : InstanceData) :
    Option UpdateInfo × TreeManager :=
  let hasParentHint := inst.parentGuid.isSome
  let incomingParentGuid : Option String := inst.parentGuid.join
  match alistLookup tm.nodes inst.guid with
  | some existing =>
    let prevPath := existing.path
    let prevName := existing.name
    let pathChanged := ¬ pathsEqual existing.path inst.path
    let nameChanged := existing.name ≠ inst.name
    let currentParentGuid : Option String :=
      match existing.parent with
      | some pr => some pr
      | none => existing.parentGuid.join
    let nextParentGuid :=
      if hasParentHint then incomingParentGuid else currentParentGuid
    let parentChanged := hasParentHint ∧ nextParentGuid ≠ currentParentGuid
    let nextSource :=
      match inst.source with
      | some s => some s
      | none => existing.source
    let tm₁ :=
      if pathChanged then
        { tm with pathIndex :=
            (indexWalk true (tmFuel tm) [inst.guid] tm.nodes tm.pathIndex) }
      else tm
    let existing' := { existing with
      className := inst.className
      name := inst.name
      path := inst.path
      parentGuid := some nextParentGuid
      source := nextSource }
    let tm₂ := { tm₁ with nodes := alistSet tm₁.nodes inst.guid existing' }
    let tm₃ :=
      if pathChanged ∨ nameChanged ∨ parentChanged then
        let tmr := reparentNode tm₂ inst.guid inst.path nextParentGuid
        let tmq := { tmr with nodes :=
            (recalcChildPaths (tmFuel tmr) existing'.children tmr.nodes) }
        { tmq with pathIndex :=
            (indexWalk false (tmFuel tmq) [inst.guid] tmq.nodes tmq.pathIndex) }
      else tm₂
    (some {
      node := (alistLookup tm₃.nodes inst.guid).getD existing'
      pathChanged := pathChanged
      nameChanged := nameChanged
      parentChanged := parentChanged
      isNew := false
      prevPath := some prevPath
      prevName := some prevName }, tm₃)
  | none =>
    let node : TreeNode := {
      guid := inst.guid
      className := inst.className
      name := inst.name
      path := inst.path
      parentGuid := some incomingParentGuid
      source := inst.source
      children := []
      parent := none }
    let tm₁ := { tm with nodes := alistSet tm.nodes inst.guid node }
    let tm₂ := reparentNode tm₁ inst.guid inst.path incomingParentGuid
    let tm₃ := { tm₂ with nodes :=
        (recalcChildPaths (tmFuel tm₂) node.children tm₂.nodes) }
    let tm₄ := { tm₃ with pathIndex :=
        (indexWalk false (tmFuel tm₃) [inst.guid] tm₃.nodes tm₃.pathIndex) }
    (some {
      node := (alistLookup tm₄.nodes inst.guid).getD node
      pathChanged := false
      nameChanged := false
      parentChanged := false
      isNew := true }, tm₄)

/-- The iterative subtree removal inside `deleteInstance`: pop a node,
push its children, remove it from the node table and from the path index
at its current path.  (The list models the JavaScript stack with its top
at the head.)  Termination is by the lexicographic measure (table size,
stack size): a hit shrinks the table, a miss shrinks the stack. -/
def deleteLoop (stack : List String) (nodes : List (String × TreeNode))
    (idx : List (Path × List String)) :
    List (String × TreeNode) × List (Path × List String) :=
  match stack with
  | [] => (nodes, idx)
  | g :: rest =>
    match h : alistLookup nodes g with
    | none => deleteLoop rest nodes idx
    | some n =>
      deleteLoop (n.children.reverse ++ rest) (alistErase nodes g)
        (idxRemove idx n.path g)
termination_by (nodes.length, stack.length)
decreasing_by
  · apply Prod.Lex.right
    simp
  · apply Prod.Lex.left
    exact alistErase_length_lt nodes g n h

/-- The first step of `deleteInstance`: remove the guid from its
parent's children map (a no-op when the node has no parent or the
parent is not in the table). -/
def detachParent (nodes : List (String × TreeNode)) (guid : String)
    (n : TreeNode) : List (String × TreeNode) :=
  match n.parent with
  | some pg =>
    match alistLookup nodes pg with
    | some p =>
      alistSet nodes pg { p with children := p.children.erase guid }
    | none => nodes
  | none => nodes

/-- `deleteInstance`: `null` for a missing guid; otherwise detach the
node from its parent's children map first, then delete the whole subtree
from the node table and the path index, and return the removed root
(whose children map was cleared and parent reference dropped by the
loop). -/
def deleteInstance (tm : TreeManager) (guid : String) :
    Option TreeNode × TreeManager :=
  match alistLookup tm.nodes guid with
  | none => (none, tm)
  | some n =>
    (some { n with children := [], parent := none },
      { tm with
        nodes := (deleteLoop [guid] (detachParent tm.nodes guid n)
          tm.pathIndex).1
        pathIndex := (deleteLoop [guid] (detachParent tm.nodes guid n)
          tm.pathIndex).2 })

/-- Reachability along `children` edges in a node table: the nodes the
worklists of `deleteInstance` and `registerSubtree` can visit starting
from a guid. -/
inductive Reach (s : List (String × TreeNode)) : String → String → Prop where
  | refl (g : String) : Reach s g g
  | step {g c h : String} (n : TreeNode) (hg : alistLookup s g = some n)
      (hc : c ∈ n.children) (hr : Reach s c h) : Reach s g h

/-- Keys of the node table are distinct. -/
def StoreKeysNodup (s : List (String × TreeNode)) : Prop :=
  (s.map Prod.fst).Nodup

/-- Spec invariant 2 in the form the proofs need: along every `children`
edge whose two ends are in the table, the child's path is strictly
longer.  (Stated over list membership so that it is decidable on
concrete states.) -/
def DepthOK (s : List (String × TreeNode)) : Prop :=
  ∀ e ∈ s, ∀ c ∈ e.2.children, ∀ f ∈ s, f.1 = c →
    e.2.path.length < f.2.path.length

/-- Spec invariant 5 in the form the proofs need: index keys are
distinct, every bucket has distinct members, and every bucket member is
a table node whose current path is the bucket's key. -/
def IdxOK (s : List (String × TreeNode))
    (idx : List (Path × List String)) : Prop :=
  (idx.map Prod.fst).Nodup ∧
    ∀ e ∈ idx, e.2.Nodup ∧ ∀ g ∈ e.2, ∃ f ∈ s, f.1 = g ∧ f.2.path = e.1

/-! ## Sourcemap trees (`pack.ts`, `sourcemap/propertyLoader.ts`) -/

/-- `SourcemapNode` (fields: name, className, guid, filePaths,
properties, attributes, children).  `filePaths` entries stay raw strings
as in the JSON file. -/
inductive SMNode where
  | mk (name className : String) (guid : Option String)
      (filePaths : Option (List String))
      (properties attributes : Option PropMap)
      (children : List SMNode)

/-- The `name` field. -/
def SMNode.name : SMNode → String
  | .mk n _ _ _ _ _ _ => n

/-- The `className` field. -/
def SMNode.className : SMNode → String
  | .mk _ c _ _ _ _ _ => c

/-- The `guid` field. -/
def SMNode.guid : SMNode → Option String
  | .mk _ _ g _ _ _ _ => g

/-- The `filePaths` field. -/
def SMNode.filePaths : SMNode → Option (List String)
  | .mk _ _ _ f _ _ _ => f

/-- The `children` field (`?? []`). -/
def SMNode.children : SMNode → List SMNode
  | .mk _ _ _ _ _ _ cs => cs

/-- `SourcemapRoot`. -/
structure SMRoot where
  name : String := "Game"
  className : String := "DataModel"
  children : List SMNode := []

/-- `pathClassKey` joins the segments with `\u0001` and appends
`"::" + className`; both are kept apart here as a pair, which the join
encodes injectively. -/
abbrev PathClassKey := Path × String

/-- guid → `filePaths` of the existing sourcemap (`guidFilePaths`). -/
abbrev GuidMap := List (String × List String)

/-- `(path, className)` → list of `filePaths` arrays
(`pathClassFilePaths`). -/
abbrev BucketMap := List (PathClassKey × List (List String))

/-- `(path, className)` → advancing cursor (`pathClassCursor`). -/
abbrev CursorMap := List (PathClassKey × Nat)

mutual

/-- `indexExisting` from `PackCommand.regenerateSourcemap`: walk the
existing sourcemap; every node with a non-empty `filePaths` records it
under its guid (when the guid is a truthy string) and appends it to the
`(path, className)` bucket. -/
def indexExisting (node : SMNode) (currentPath : Path)
    (acc : GuidMap × BucketMap) : GuidMap × BucketMap :=
  match node with
  | .mk name className guid filePaths _ _ children =>
    let nodePath := currentPath ++ [name]
    let acc :=
      match filePaths with
      | some fps =>
        if fps.length > 0 then
          let gm :=
            match guid with
            | some g => if g ≠ "" then alistSet acc.1 g fps else acc.1
            | none => acc.1
          let key : PathClassKey := (nodePath, className)
          let bucket := (alistLookup acc.2 key).getD []
          (gm, alistSet acc.2 key (bucket ++ [fps]))
        else acc
      | none => acc
    indexExistingList children nodePath acc

/-- `indexExisting` over a `children` array, left to right. -/
def indexExistingList (nodes : List SMNode) (currentPath : Path)
    (acc : GuidMap × BucketMap) : GuidMap × BucketMap :=
  match nodes with
  | [] => acc
  | n :: rest => indexExistingList rest currentPath (indexExisting n currentPath acc)

end

/-- The bucket branch of the `filePaths` assignment in
`regenerateSourcemap`: read the `(path, className)` bucket, take the
entry at the cursor, assign it when it is non-empty and advance the
cursor. -/
def bucketAssign (item : InstanceData) (bm : BucketMap) (cursor : CursorMap) :
    Option (List String) × CursorMap :=
  match alistLookup bm (item.path, item.className) with
  | some bucket =>
    if bucket.length > 0 then
      match bucket.get? ((alistLookup cursor (item.path, item.className)).getD 0) with
      | some candidate =>
        if candidate.length > 0 then
          (some candidate, alistSet cursor (item.path, item.className)
            ((alistLookup cursor (item.path, item.className)).getD 0 + 1))
        else (none, cursor)
      | none => (none, cursor)
    else (none, cursor)
  | none => (none, cursor)

/-- The `filePaths` assignment loop of `regenerateSourcemap` over the
sorted snapshot: a non-empty guid match wins, otherwise the bucket with
its advancing cursor is consulted. -/
def regenAssign (items : List InstanceData) (gm : GuidMap) (bm : BucketMap)
    (cursor : CursorMap) : List (InstanceData × Option (List String)) :=
  match items with
  | [] => []
  | item :: rest =>
    match alistLookup gm item.guid with
    | some fps =>
      if fps.length > 0 then (item, some fps) :: regenAssign rest gm bm cursor
      else
        (item, (bucketAssign item bm cursor).1) ::
          regenAssign rest gm bm (bucketAssign item bm cursor).2
    | none =>
      (item, (bucketAssign item bm cursor).1) ::
        regenAssign rest gm bm (bucketAssign item bm cursor).2

/-- Whether an instance has no (non-empty) guid match in the existing
sourcemap's guid map — exactly the fall-through condition of the
assignment in `regenerateSourcemap`. -/
def guidMiss (gm : GuidMap) (item : InstanceData) : Bool :=
  match alistLookup gm item.guid with
  | some fps => fps.length = 0
  | none => true

/-- Whether an instance carries the given `(path, className)` key. -/
def sameKey (key : PathClassKey) (item : InstanceData) : Bool :=
  (item.path, item.className) = key

/-- The sort comparator of `regenerateSourcemap`: path length first,
then `localeCompare` of the slash-joined paths — the latter depends on
the runtime locale, so it is a parameter. -/
def snapshotLe (cmp : String → String → Bool) (a b : InstanceData) : Bool :=
  a.path.length < b.path.length ||
    (a.path.length = b.path.length &&
      cmp (String.intercalate "/" a.path) (String.intercalate "/" b.path))

/-- `regenerateSourcemap`, restricted to what it computes per instance:
index the existing sourcemap, sort the snapshot (JavaScript `sort` with
that comparator behaves as a stable merge sort), and run the assignment
loop with an empty cursor map.  The remaining lines of the code only
attach each produced node to its parent's `children` array and never
touch the assigned `filePaths` (the attachment relation is
`regenAttach` below). -/
def regenerateAssignments (cmp : String → String → Bool)
    (snapshot : List InstanceData) (existing : Option SMRoot) :
    List (InstanceData × Option (List String)) :=
  let maps :=
    match existing with
    | some root => indexExistingList root.children [] ([], [])
    | none => ([], [])
  regenAssign (snapshot.mergeSort (snapshotLe cmp)) maps.1 maps.2 []

/-- The parent attachment of `regenerateSourcemap` (`byGuid` /
`parentNode.children.push`): every produced node is appended to the
children of its `parentGuid` when that guid is a truthy string other
than `"root"` already produced, and to the root otherwise. -/
def regenAttach (items : List (InstanceData × Option (List String))) :
    List (String × List String) :=
  let rec go (items : List (InstanceData × Option (List String)))
      (seen : List String) (acc : List (String × List String)) :
      List (String × List String) :=
    match items with
    | [] => acc
    | (item, _) :: rest =>
      let parentKey :=
        match item.parentGuid.join with
        | some pg => if pg ≠ "" ∧ pg ≠ "root" ∧ seen.contains pg then pg else "root"
        | none => "root"
      let bucket := (alistLookup acc parentKey).getD []
      go rest (seen ++ [item.guid]) (alistSet acc parentKey (bucket ++ [item.guid]))
  go items [] []

/-! ## `sourcemap/propertyLoader.ts` -/

/-- `isScript` check on a className string, as `buildInstancesFromSourcemap`
performs it. -/
def isScriptClassName (cn : String) : Bool :=
  cn = "Script" || cn = "LocalScript" || cn = "ModuleScript"

/-- The `parentGuid` field `visit` stores: absent stays absent, a guid
is wrapped as a present value. -/
def optWrap (pg : Option String) : Option (Option String) :=
  match pg with
  | some p => some (some p)
  | none => none

/-- `node.guid ?? randomUUID()`: the node's guid when the field is
present (even empty), else the next minted guid. -/
def buildGuid (mint : Nat → String) (g : Option String) (k : Nat) : String :=
  match g with
  | some x => x
  | none => mint k

/-- The mint counter after one node: unchanged when the node had a
guid, advanced when one was minted. -/
def buildNext (g : Option String) (k : Nat) : Nat :=
  match g with
  | some _ => k
  | none => k + 1

/-- The `source` field `visit` computes: for scripts with a non-empty
`filePaths`, the result of reading the first entry (`none` models the
caught read failure, which leaves `source` unset). -/
def buildSource (readFile : String → Option String) (className : String)
    (filePaths : Option (List String)) : Option String :=
  if isScriptClassName className then
    match filePaths with
    | some fps =>
      if fps.length > 0 then
        match fps.head? with
        | some fp => readFile fp
        | none => none
      else none
    | none => none
  else none

mutual

/-- The `visit` closure of `buildInstancesFromSourcemap`: preorder walk
producing one `InstanceData` per sourcemap node.  `readFile` stands for
`fs.readFileSync`, `mint` for the successive `randomUUID()` results,
threaded by the counter `k`. -/
def buildVisit (readFile : String → Option String) (mint : Nat → String)
    (node : SMNode) (currentPath : Path) (parentGuid : Option String)
    (k : Nat) : List InstanceData × Nat :=
  match node with
  | .mk name className nguid filePaths props attrs children =>
    (({ guid := buildGuid mint nguid k
        className := className
        name := name
        path := currentPath ++ [name]
        parentGuid := optWrap parentGuid
        source := buildSource readFile className filePaths
        properties := props
        attributes := attrs } : InstanceData) ::
      (buildVisitList readFile mint children (currentPath ++ [name])
        (some (buildGuid mint nguid k)) (buildNext nguid k)).1,
     (buildVisitList readFile mint children (currentPath ++ [name])
        (some (buildGuid mint nguid k)) (buildNext nguid k)).2)

/-- `visit` over a `children` array, left to right, threading the
guid-mint counter. -/
def buildVisitList (readFile : String → Option String) (mint : Nat → String)
    (nodes : List SMNode) (currentPath : Path) (parentGuid : Option String)
    (k : Nat) : List InstanceData × Nat :=
  match nodes with
  | [] => ([], k)
  | n :: rest =>
    ((buildVisit readFile mint n currentPath parentGuid k).1 ++
      (buildVisitList readFile mint rest currentPath parentGuid
        (buildVisit readFile mint n currentPath parentGuid k).2).1,
     (buildVisitList readFile mint rest currentPath parentGuid
        (buildVisit readFile mint n currentPath parentGuid k).2).2)

end

/-- `buildInstancesFromSourcemap` on a parsed sourcemap root: visit all
root children from the empty path with no parent guid, then sort by
path length (JavaScript `sort` is stable; `mergeSort` is its stable
counterpart). -/
def buildInstancesFromSourcemap (readFile : String → Option String)
    (mint : Nat → String) (root : SMRoot) : List InstanceData :=
  (buildVisitList readFile mint root.children [] none 0).1.mergeSort
    fun a b => decide (a.path.length ≤ b.path.length)

mutual

/-- The guids present in a sourcemap subtree. -/
def smGuids (node : SMNode) : List String :=
  match node with
  | .mk _ _ g _ _ _ cs =>
    (match g with
     | some x => [x]
     | none => []) ++ smGuidsList cs

/-- The guids present in a sourcemap forest. -/
def smGuidsList (nodes : List SMNode) : List String :=
  match nodes with
  | [] => []
  | n :: rest => smGuids n ++ smGuidsList rest

end

/-! ## Concrete states used by counterexamples and witnesses -/

/-- The default configuration (`.luau` extension). -/
def cfgLuau : Config :=
  { scriptExtension := ".luau", suffixModuleScripts := false }

/-- The default configuration with `suffixModuleScripts` enabled. -/
def cfgLuauSuffix : Config :=
  { scriptExtension := ".luau", suffixModuleScripts := true }

/-- A fresh file writer over base directory `sync`. -/
def fwSyncEmpty : FileWriter :=
  { baseDir := ["sync"], fs := { dirs := [["sync"]] } }

/-- The spec's cold-connect example: ModuleScript `Util` under
`ReplicatedStorage` (`path` includes the node's own name, as the tree
manager maintains it). -/
def utilNode : TreeNode :=
  { guid := "aaaa0000aaaa0000", className := "ModuleScript", name := "Util"
    path := ["ReplicatedStorage", "Util"], source := some "return 0" }

/-- A ModuleScript whose name differs from its trailing path segment. -/
def helperModule : TreeNode :=
  { guid := "cccc0000", className := "ModuleScript", name := "Helper"
    path := ["ReplicatedStorage"], source := some "return 0" }

/-- A script node carrying an empty-string source. -/
def emptySourceNode : TreeNode :=
  { guid := "dddd0000", className := "Script", name := "S"
    path := ["Workspace", "S"], source := some "" }

/-- A same-named sibling ModuleScript with a chosen guid. -/
def collideNode (g : String) : TreeNode :=
  { guid := g, className := "ModuleScript", name := "X"
    path := ["RS", "X"], source := some "s" }

/-- The file writer after writing three same-named siblings, the last
two with guids sharing their first 8 characters. -/
def c2State : FileWriter :=
  (writeScript cfgLuau
    (writeScript cfgLuau
      (writeScript cfgLuau fwSyncEmpty (collideNode "bbbbbbbb00")).2
      (collideNode "aaaaaaaa01")).2
    (collideNode "aaaaaaaa02")).2

/-- A file writer owning one script file at `sync/RS/F/X/init.luau`
(node path `[RS, F, X]`), with exactly the directory chain on disk. -/
def fwMoveStart : FileWriter :=
  { baseDir := ["sync"]
    fileMappings := [("g1",
      { guid := "g1", filePath := ["sync", "RS", "F", "X", "init.luau"]
        className := "ModuleScript" })]
    fs := { files := [(["sync", "RS", "F", "X", "init.luau"], "old")]
            dirs := [["sync"], ["sync", "RS"], ["sync", "RS", "F"],
              ["sync", "RS", "F", "X"]] } }

/-- The same node after a move/rename that places it at path `[RS, F]`
(its computed file directory is an ancestor of the old one). -/
def movedNode : TreeNode :=
  { guid := "g1", className := "ModuleScript", name := "F"
    path := ["RS", "F"], source := some "body" }

/-- A tree manager with two ambiguous siblings at path `A` and a unique
node at path `B`. -/
def tmC3 : TreeManager :=
  { nodes := [], pathIndex := [(["A"], ["g1", "g2"]), (["B"], ["g3"])] }

/-- The file writer after the first of the three collision writes. -/
def c2AfterFirst : FileWriter :=
  (writeScript cfgLuau fwSyncEmpty (collideNode "bbbbbbbb00")).2

/-- A small existing-sourcemap guid map: guid `g1` owns `f1.luau`. -/
def c8gm : GuidMap := [("g1", ["f1.luau"])]

/-- A small `(path, className)` bucket with two existing entries. -/
def c8bm : BucketMap :=
  [(((["RS", "A"], "ModuleScript") : PathClassKey),
    [["b1.luau"], ["b2.luau"]])]

/-- A snapshot instance whose guid matches the guid map. -/
def c8item1 : InstanceData :=
  { guid := "g1", className := "ModuleScript", name := "A"
    path := ["RS", "A"] }

/-- A snapshot instance with no guid match (first bucket consumer). -/
def c8item2 : InstanceData :=
  { guid := "x1", className := "ModuleScript", name := "A"
    path := ["RS", "A"] }

/-- A snapshot instance with no guid match (second bucket consumer). -/
def c8item3 : InstanceData :=
  { guid := "x2", className := "ModuleScript", name := "A"
    path := ["RS", "A"] }

/-- The three instances in processing order. -/
def c8items : List InstanceData := [c8item1, c8item2, c8item3]

/-- A concrete sourcemap root: a folder `RS` holding a ModuleScript
`Util` with a guid and one file path. -/
def c9root : SMRoot :=
  { children := [SMNode.mk "RS" "Folder" none none none none
      [SMNode.mk "Util" "ModuleScript" (some "aaaa")
        (some ["sync/RS/Util.luau"]) none none []]] }

end Azul

namespace Azul

/-! ## Theorems -/

/-- C10: for every node whose source is the empty string, and for every
node that is not a script node, `writeScript` returns `null` and leaves
the file writer — mapping table and disk — unchanged: an empty-string
source is treated exactly like an absent source. -/
theorem writeScript_skips_empty_and_nonscript (cfg : Config)
    (fw : FileWriter) (node : TreeNode)
    (h : isScriptNode node = false ∨ node.source = none ∨
      node.source = some "") :
    writeScript cfg fw node = (none, fw) := by
  unfold writeScript
  rcases h with h | h | h <;> simp [h]

/-- C10 witness: a `Script` node with empty-string source is skipped on
the concrete fresh writer. -/
theorem writeScript_skips_witness :
    emptySourceNode.source = some "" ∧ isScriptNode emptySourceNode = true ∧
      writeScript cfgLuau fwSyncEmpty emptySourceNode = (none, fwSyncEmpty) :=
  ⟨rfl, rfl, writeScript_skips_empty_and_nonscript cfgLuau fwSyncEmpty
    emptySourceNode (Or.inr (Or.inr rfl))⟩

/-- C3: when the path-index bucket of a path holds two or more nodes,
`findNodeByPath` returns no result; when it holds exactly one node,
that node is returned. -/
theorem findNodeByPath_spec (tm : TreeManager) (p : Path)
    (b : List String) (hb : alistLookup tm.pathIndex p = some b) :
    (2 ≤ b.length → findNodeByPath tm p = none) ∧
      (∀ g, b = [g] → findNodeByPath tm p = some g) := by
  constructor
  · intro hlen
    unfold findNodeByPath
    rw [hb]
    match b, hlen with
    | g₁ :: g₂ :: rest, _ => rfl
  · intro g hg
    subst hg
    unfold findNodeByPath
    rw [hb]

/-- C3 witness: on a concrete manager, the two-element bucket at path
`A` yields no result and the singleton bucket at path `B` yields its
node. -/
theorem findNodeByPath_witness :
    alistLookup tmC3.pathIndex ["A"] = some ["g1", "g2"] ∧
      findNodeByPath tmC3 ["A"] = none ∧
      findNodeByPath tmC3 ["B"] = some "g3" :=
  ⟨rfl, (findNodeByPath_spec tmC3 ["A"] ["g1", "g2"] rfl).1 (by decide),
    (findNodeByPath_spec tmC3 ["B"] ["g3"] rfl).2 "g3" rfl⟩

/-- C6 counterexample: with `suffixModuleScripts` enabled, the file
name produced for a ModuleScript named `Helper` is `Helper.luau`, not
`Helper.module.luau`: no `.module` segment is inserted between the
sanitized name and the extension. -/
theorem getScriptFileName_no_suffix_counterexample :
    getScriptFileName cfgLuauSuffix helperModule = "Helper.luau" ∧
      getScriptFileName cfgLuauSuffix helperModule ≠ "Helper.module.luau" :=
  ⟨rfl, by decide⟩

/-- C6 amended: `getScriptFileName` never inserts `.module`: its result
is independent of the `suffixModuleScripts` flag and of the node's
class, so under any configuration a ModuleScript gets exactly the file
name a Script of the same name and path would get. -/
theorem getScriptFileName_ignores_suffix_flag (ext : String) (b₁ b₂ : Bool)
    (node : TreeNode) (cn : String) :
    getScriptFileName ⟨ext, b₁⟩ node = getScriptFileName ⟨ext, b₂⟩ node ∧
      getScriptFileName ⟨ext, b₁⟩ { node with className := cn } =
        getScriptFileName ⟨ext, b₁⟩ node :=
  ⟨rfl, rfl⟩

/-- C1: on the spec's own example — ModuleScript `Util`, path
`[ReplicatedStorage, Util]` (paths include the node's own name, per the
tree manager's `recalculateChildPaths`) — `getFilePath` compares
`node.name` against `node.path[-1]`, the node's own trailing segment,
rather than the parent segment `node.path[-2]`, and keeps every path
segment as a directory: the file lands at
`sync/ReplicatedStorage/Util/init.luau` instead of the specified
`sync/ReplicatedStorage/Util.luau`. -/
theorem getFilePath_init_divergence :
    getFilePath cfgLuau fwSyncEmpty utilNode =
        ["sync", "ReplicatedStorage", "Util", "init.luau"] ∧
      getFilePath cfgLuau fwSyncEmpty utilNode ≠
        ["sync", "ReplicatedStorage", "Util.luau"] :=
  ⟨rfl, by decide⟩

/-- C4: on a node whose newly computed file directory is an ancestor of
its previous one, `writeScript` unlinks the old file, prunes its emptied
parents — including the freshly ensured target directory — and the
subsequent write throws, is caught, and returns `null`: afterwards the
mapping still points at the old (now deleted) path, and neither the old
nor the new file exists.  The spec's promise that the mapping points at
the new path after the move does not hold here. -/
theorem writeScript_move_prune_divergence :
    (writeScript cfgLuau fwMoveStart movedNode).1 = none ∧
      (alistLookup (writeScript cfgLuau fwMoveStart movedNode).2.fileMappings
          "g1").map FileMapping.filePath =
        some ["sync", "RS", "F", "X", "init.luau"] ∧
      (writeScript cfgLuau fwMoveStart movedNode).2.fs.fileExists
          ["sync", "RS", "F", "X", "init.luau"] = false ∧
      (writeScript cfgLuau fwMoveStart movedNode).2.fs.fileExists
          ["sync", "RS", "F", "init.luau"] = false ∧
      (writeScript cfgLuau fwMoveStart movedNode).2.fs.dirExists
          ["sync", "RS", "F"] = false :=
  ⟨rfl, rfl, rfl, rfl, rfl⟩

/-- A character list with a double underscore inserted is longer than
the list without it. -/
theorem underscore_insert_ne (s t e : List Char) :
    ((s ++ ['_', '_']) ++ t) ++ e ≠ s ++ e := by
  intro h
  have hlen := congrArg List.length h
  simp only [List.length_append, List.length_cons, List.length_nil] at hlen
  omega

/-- A character list with a double underscore right after `s` is never
`init` followed by the same suffix. -/
theorem underscore_not_init (s t e : List Char) :
    ((s ++ ['_', '_']) ++ t) ++ e ≠ ['i', 'n', 'i', 't'] ++ e := by
  intro h
  have h' : (s ++ ['_', '_']) ++ t = ['i', 'n', 'i', 't'] :=
    List.append_cancel_right h
  have hmem : '_' ∈ (['i', 'n', 'i', 't'] : List Char) := by
    rw [← h']
    exact List.mem_append_left _ (List.mem_append_right _ (by simp))
  simp at hmem

/-- String append concatenates the character data. -/
theorem stringData_append (a b : String) :
    (a ++ b).data = a.data ++ b.data := by
  rw [String.congr_append]

/-- The disambiguated file name `name__guidprefix.ext` never equals the
plain script file name (`init.ext` or `name.ext`): the former always
carries a double underscore before the extension. -/
theorem uniqueName_ne_scriptFileName (cfg : Config) (node : TreeNode) :
    sanitizeName node.name ++ "__" ++ node.guid.take 8 ++
        cfg.scriptExtension ≠ getScriptFileName cfg node := by
  have hus : ("__" : String).data = ['_', '_'] := rfl
  have hin : ("init" : String).data = ['i', 'n', 'i', 't'] := rfl
  unfold getScriptFileName
  rcases hgl : node.path.getLast? with _ | parentName
  · intro he
    have hd := congrArg String.data he
    simp only [stringData_append, hus] at hd
    exact underscore_insert_ne _ _ _ hd
  · by_cases hpn : node.name = parentName
    · simp only [hpn, if_pos rfl]
      intro he
      have hd := congrArg String.data he
      simp only [stringData_append, hus, hin] at hd
      exact underscore_not_init _ _ _ hd
    · simp only [if_neg hpn]
      intro he
      have hd := congrArg String.data he
      simp only [stringData_append, hus] at hd
      exact underscore_insert_ne _ _ _ hd

/-- C2 amended: the collision policy is as described — when the desired
path is already owned by a different guid, `getFilePath` returns the
desired path with its file name replaced by
`<sanitized-name>__<first-8-of-guid><ext>`, which always differs from
the desired path, so a write never silently takes over the colliding
owner's file.  (Full pairwise injectivity of the mapping still fails:
see the counterexample, where two guids share their first 8
characters.) -/
theorem getFilePath_collision_disambiguates (cfg : Config)
    (fw : FileWriter) (node : TreeNode) (g : String)
    (hscript : isScriptNode node = true)
    (hcol : findGuidByFilePath fw.fileMappings
        (fw.baseDir ++ (node.path.map sanitizeName ++
          [getScriptFileName cfg node])) = some g)
    (hne : g ≠ node.guid) :
    getFilePath cfg fw node =
        fw.baseDir ++ (node.path.map sanitizeName ++
          [sanitizeName node.name ++ "__" ++ node.guid.take 8 ++
            cfg.scriptExtension]) ∧
      getFilePath cfg fw node ≠
        fw.baseDir ++ (node.path.map sanitizeName ++
          [getScriptFileName cfg node]) := by
  have hval : getFilePath cfg fw node =
      fw.baseDir ++ (node.path.map sanitizeName ++
        [sanitizeName node.name ++ "__" ++ node.guid.take 8 ++
          cfg.scriptExtension]) := by
    unfold getFilePath
    simp only [hscript, if_true, ite_true]
    rw [hcol]
    simp only [hne, ne_eq, not_false_iff, if_true, ite_true,
      List.dropLast_concat]
  refine ⟨hval, ?_⟩
  rw [hval]
  intro he
  have h₁ := List.append_cancel_left he
  have h₂ := List.append_cancel_left h₁
  have h₃ : sanitizeName node.name ++ "__" ++ node.guid.take 8 ++
      cfg.scriptExtension = getScriptFileName cfg node := by
    simpa using h₂
  exact uniqueName_ne_scriptFileName cfg node h₃

/-- C2 witness: on the concrete writer owning `sync/RS/X/init.luau`
under guid `bbbbbbbb00`, a colliding sibling with guid `aaaaaaaa01` is
routed away from the owned path. -/
theorem getFilePath_collision_witness :
    getFilePath cfgLuau c2AfterFirst (collideNode "aaaaaaaa01") ≠
      c2AfterFirst.baseDir ++ ((collideNode "aaaaaaaa01").path.map sanitizeName ++
        [getScriptFileName cfgLuau (collideNode "aaaaaaaa01")]) :=
  (getFilePath_collision_disambiguates cfgLuau c2AfterFirst
    (collideNode "aaaaaaaa01") "bbbbbbbb00" rfl rfl (by decide)).2

/-- C2 counterexample: after three `writeScript` calls on same-named
same-path sibling scripts whose last two guids share their first 8
characters, the two distinct guids `aaaaaaaa01` and `aaaaaaaa02` are
both mapped to the file path `sync/RS/X/X__aaaaaaaa.luau`: the mapping
table is not injective, and the second file silently overwrites the
first. -/
theorem fileMappings_collision_counterexample :
    (alistLookup c2State.fileMappings "aaaaaaaa01").map FileMapping.filePath
        = some ["sync", "RS", "X", "X__aaaaaaaa.luau"] ∧
      (alistLookup c2State.fileMappings "aaaaaaaa02").map FileMapping.filePath
        = some ["sync", "RS", "X", "X__aaaaaaaa.luau"] ∧
      ("aaaaaaaa01" : String) ≠ "aaaaaaaa02" :=
  ⟨rfl, rfl, by decide⟩

/-- `List.get?` stays `none` further right. -/
theorem get?_none_add {α : Type} (l : List α) (n m : Nat)
    (h : l.get? n = none) : l.get? (n + m) = none := by
  rw [List.get?_eq_none] at h ⊢
  omega

/-- `bucketAssign` at the item's own key: the assigned value is the
bucket entry at the current cursor, and the cursor advances exactly
when an entry was assigned. -/
theorem bucketAssign_spec (item : InstanceData) (bm : BucketMap)
    (cur : CursorMap) (bucket : List (List String))
    (hb : alistLookup bm (item.path, item.className) = some bucket)
    (hne : ∀ c ∈ bucket, c ≠ []) :
    (bucketAssign item bm cur).1 =
        bucket.get? ((alistLookup cur (item.path, item.className)).getD 0) ∧
      (alistLookup (bucketAssign item bm cur).2
          (item.path, item.className)).getD 0 =
        (if (bucket.get?
            ((alistLookup cur (item.path, item.className)).getD 0)).isSome
         then (alistLookup cur (item.path, item.className)).getD 0 + 1
         else (alistLookup cur (item.path, item.className)).getD 0) := by
  unfold bucketAssign
  rw [hb]
  by_cases hlen : bucket.length > 0
  · simp only [if_pos hlen]
    cases hget : bucket.get? ((alistLookup cur (item.path, item.className)).getD 0) with
    | some candidate =>
      have hc : candidate ≠ [] := hne _ (List.get?_mem hget)
      have hcl : candidate.length > 0 := List.length_pos.mpr hc
      simp [hget, hcl, alistLookup_set_self]
    | none => simp [hget]
  · have hb0 : bucket = [] := by
      cases bucket with
      | nil => rfl
      | cons c cs => simp at hlen
    subst hb0
    simp

/-- `bucketAssign` leaves every other key's cursor unchanged. -/
theorem bucketAssign_cursor_other (item : InstanceData) (bm : BucketMap)
    (cur : CursorMap) (K : PathClassKey)
    (hk : (item.path, item.className) ≠ K) :
    alistLookup (bucketAssign item bm cur).2 K = alistLookup cur K := by
  unfold bucketAssign
  cases hbm : alistLookup bm (item.path, item.className) with
  | none => rfl
  | some bucket =>
    by_cases hlen : bucket.length > 0
    · simp only [if_pos hlen]
      cases hget : bucket.get?
          ((alistLookup cur (item.path, item.className)).getD 0) with
      | some candidate =>
        by_cases hcl : candidate.length > 0
        · simp only [hget, if_pos hcl]
          exact alistLookup_set_other cur _ K _ hk
        · simp [hget, hcl]
      | none => simp [hget]
    · simp [hlen]

/-- The guid-match branch of the assignment: an instance whose guid
carries a non-empty `filePaths` in the guid map receives exactly it. -/
theorem regenAssign_guid_hit (gm : GuidMap) (bm : BucketMap) :
    ∀ (items : List InstanceData) (cur : CursorMap) (i : Nat)
      (item : InstanceData) (fps : List String),
      items.get? i = some item →
      alistLookup gm item.guid = some fps → 0 < fps.length →
      (regenAssign items gm bm cur).get? i = some (item, some fps) := by
  intro items
  induction items with
  | nil =>
    intro cur i item fps hi
    simp at hi
  | cons hd tl ih =>
    intro cur i item fps hi hg hlen
    cases i with
    | zero =>
      rw [List.get?_cons_zero] at hi
      injection hi with hi
      subst hi
      unfold regenAssign
      rw [hg]
      simp [hlen]
    | succ j =>
      rw [List.get?_cons_succ] at hi
      unfold regenAssign
      cases hg₀ : alistLookup gm hd.guid with
      | some fps₀ =>
        by_cases h₀ : fps₀.length > 0
        · simp only [h₀, if_pos h₀, List.get?_cons_succ]
          exact ih cur j item fps hi hg hlen
        · simp only [h₀, if_neg h₀, List.get?_cons_succ]
          exact ih _ j item fps hi hg hlen
      | none =>
        simp only [List.get?_cons_succ]
        exact ih _ j item fps hi hg hlen

/-- The bucket branch of the assignment: an instance with no guid match
receives the bucket entry at the initial cursor plus the number of
earlier same-key non-matched instances — so the existing entries are
consumed in order, each by at most one instance. -/
theorem regenAssign_bucket_formula (gm : GuidMap) (bm : BucketMap)
    (K : PathClassKey) (bucket : List (List String))
    (hb : alistLookup bm K = some bucket) (hne : ∀ c ∈ bucket, c ≠ []) :
    ∀ (items : List InstanceData) (cur : CursorMap) (i : Nat)
      (item : InstanceData),
      items.get? i = some item →
      guidMiss gm item = true →
      (item.path, item.className) = K →
      (regenAssign items gm bm cur).get? i =
        some (item, bucket.get? ((alistLookup cur K).getD 0 +
          ((items.take i).filter
            (fun it => guidMiss gm it && sameKey K it)).length)) := by
  intro items
  induction items with
  | nil =>
    intro cur i item hi
    simp at hi
  | cons hd tl ih =>
    intro cur i item hi hm hk
    cases i with
    | zero =>
      rw [List.get?_cons_zero] at hi
      injection hi with hi
      rw [hi]
      have hbi : alistLookup bm (item.path, item.className) = some bucket := by
        rw [hk]; exact hb
      have hspec := bucketAssign_spec item bm cur bucket hbi hne
      unfold regenAssign
      unfold guidMiss at hm
      cases hg : alistLookup gm item.guid with
      | some fps =>
        rw [hg] at hm
        have hz : ¬ fps.length > 0 := by
          simp only [decide_eq_true_eq] at hm
          omega
        simp only [if_neg hz, List.get?_cons_zero, List.take_zero,
          List.filter_nil, List.length_nil, Nat.add_zero]
        rw [hspec.1, hk]
      | none =>
        simp only [List.get?_cons_zero, List.take_zero, List.filter_nil,
          List.length_nil, Nat.add_zero]
        rw [hspec.1, hk]
    | succ j =>
      rw [List.get?_cons_succ] at hi
      unfold regenAssign
      cases hg₀ : alistLookup gm hd.guid with
      | some fps₀ =>
        by_cases h₀ : fps₀.length > 0
        · have hmiss : guidMiss gm hd = false := by
            unfold guidMiss
            rw [hg₀]
            simp only [decide_eq_false_iff_not]
            omega
          have hfilter : ((hd :: tl).take (j + 1)).filter
              (fun it => guidMiss gm it && sameKey K it) =
              (tl.take j).filter (fun it => guidMiss gm it && sameKey K it) := by
            simp [List.take_succ_cons, List.filter_cons, hmiss]
          simp only [if_pos h₀, List.get?_cons_succ]
          rw [ih cur j item hi hm hk, hfilter]
        · have hmiss : guidMiss gm hd = true := by
            unfold guidMiss
            rw [hg₀]
            simp only [decide_eq_true_eq]
            omega
          simp only [if_neg h₀, List.get?_cons_succ]
          by_cases hsk : sameKey K hd = true
          · have hdk : (hd.path, hd.className) = K := by
              unfold sameKey at hsk
              simpa using hsk
            have hfilter : ((hd :: tl).take (j + 1)).filter
                (fun it => guidMiss gm it && sameKey K it) =
                hd :: (tl.take j).filter
                  (fun it => guidMiss gm it && sameKey K it) := by
              simp [List.take_succ_cons, List.filter_cons, hmiss, hsk]
            have hbd : alistLookup bm (hd.path, hd.className) = some bucket := by
              rw [hdk]; exact hb
            have hspec := bucketAssign_spec hd bm cur bucket hbd hne
            rw [hdk] at hspec
            rw [ih (bucketAssign hd bm cur).2 j item hi hm hk, hfilter,
              hspec.2, List.length_cons]
            cases hget : bucket.get? ((alistLookup cur K).getD 0) with
            | some c =>
              have hone :
                  (if (some c : Option (List String)).isSome = true
                   then (alistLookup cur K).getD 0 + 1
                   else (alistLookup cur K).getD 0) =
                  (alistLookup cur K).getD 0 + 1 := rfl
              rw [hone]
              have harith : (alistLookup cur K).getD 0 + 1 +
                  ((tl.take j).filter
                    (fun it => guidMiss gm it && sameKey K it)).length =
                  (alistLookup cur K).getD 0 +
                    (((tl.take j).filter
                      (fun it => guidMiss gm it && sameKey K it)).length + 1) := by
                omega
              rw [harith]
            | none =>
              have hzero :
                  (if (none : Option (List String)).isSome = true
                   then (alistLookup cur K).getD 0 + 1
                   else (alistLookup cur K).getD 0) =
                  (alistLookup cur K).getD 0 := rfl
              rw [hzero]
              rw [get?_none_add bucket _ _ hget, get?_none_add bucket _ _ hget]
          · have hsk' : sameKey K hd = false := by
              cases hq : sameKey K hd
              · rfl
              · exact absurd hq hsk
            have hdk : (hd.path, hd.className) ≠ K := by
              unfold sameKey at hsk'
              simpa using hsk'
            have hfilter : ((hd :: tl).take (j + 1)).filter
                (fun it => guidMiss gm it && sameKey K it) =
                (tl.take j).filter (fun it => guidMiss gm it && sameKey K it) := by
              simp [List.take_succ_cons, List.filter_cons, hsk']
            have hcur := bucketAssign_cursor_other hd bm cur K hdk
            rw [ih (bucketAssign hd bm cur).2 j item hi hm hk, hfilter, hcur]
      | none =>
        have hmiss : guidMiss gm hd = true := by
          unfold guidMiss
          rw [hg₀]
        simp only [List.get?_cons_succ]
        by_cases hsk : sameKey K hd = true
        · have hdk : (hd.path, hd.className) = K := by
            unfold sameKey at hsk
            simpa using hsk
          have hfilter : ((hd :: tl).take (j + 1)).filter
              (fun it => guidMiss gm it && sameKey K it) =
              hd :: (tl.take j).filter
                (fun it => guidMiss gm it && sameKey K it) := by
            simp [List.take_succ_cons, List.filter_cons, hmiss, hsk]
          have hbd : alistLookup bm (hd.path, hd.className) = some bucket := by
            rw [hdk]; exact hb
          have hspec := bucketAssign_spec hd bm cur bucket hbd hne
          rw [hdk] at hspec
          rw [ih (bucketAssign hd bm cur).2 j item hi hm hk, hfilter,
            hspec.2, List.length_cons]
          cases hget : bucket.get? ((alistLookup cur K).getD 0) with
          | some c =>
            have hone :
                (if (some c : Option (List String)).isSome = true
                 then (alistLookup cur K).getD 0 + 1
                 else (alistLookup cur K).getD 0) =
                (alistLookup cur K).getD 0 + 1 := rfl
            rw [hone]
            have harith : (alistLookup cur K).getD 0 + 1 +
                ((tl.take j).filter
                  (fun it => guidMiss gm it && sameKey K it)).length =
                (alistLookup cur K).getD 0 +
                  (((tl.take j).filter
                    (fun it => guidMiss gm it && sameKey K it)).length + 1) := by
              omega
            rw [harith]
          | none =>
            have hzero :
                (if (none : Option (List String)).isSome = true
                 then (alistLookup cur K).getD 0 + 1
                 else (alistLookup cur K).getD 0) =
                (alistLookup cur K).getD 0 := rfl
            rw [hzero]
            rw [get?_none_add bucket _ _ hget, get?_none_add bucket _ _ hget]
        · have hsk' : sameKey K hd = false := by
            cases hq : sameKey K hd
            · rfl
            · exact absurd hq hsk
          have hdk : (hd.path, hd.className) ≠ K := by
            unfold sameKey at hsk'
            simpa using hsk'
          have hfilter : ((hd :: tl).take (j + 1)).filter
              (fun it => guidMiss gm it && sameKey K it) =
              (tl.take j).filter (fun it => guidMiss gm it && sameKey K it) := by
            simp [List.take_succ_cons, List.filter_cons, hsk']
          have hcur := bucketAssign_cursor_other hd bm cur K hdk
          rw [ih (bucketAssign hd bm cur).2 j item hi hm hk, hfilter, hcur]

/-- A prefix of a longer take: the filtered count over `take` is
monotone, and strictly grows past an index whose element satisfies the
predicate. -/
theorem filterTake_strict {α : Type} (P : α → Bool) (items : List α)
    (i j : Nat) (item : α) (hij : i < j) (hi : items.get? i = some item)
    (hp : P item = true) :
    ((items.take i).filter P).length < ((items.take j).filter P).length := by
  have hgetElem : items[i]? = some item := by
    rw [← List.get?_eq_getElem?]
    exact hi
  have hsucc : ((items.take (i + 1)).filter P).length =
      ((items.take i).filter P).length + 1 := by
    rw [List.take_succ, hgetElem]
    simp [List.filter_append, hp]
  have hmono : ((items.take (i + 1)).filter P).length ≤
      ((items.take j).filter P).length := by
    have htt : (items.take j).take (i + 1) = items.take (i + 1) := by
      rw [List.take_take, Nat.min_eq_left hij]
    have hpre : items.take (i + 1) <+: items.take j := by
      rw [← htt]
      exact List.take_prefix _ _
    exact (hpre.filter P).length_le
  omega

/-- C8: when pack regenerates the sourcemap, every snapshot instance
whose guid has a non-empty `filePaths` in the existing sourcemap keeps
exactly those `filePaths`; an instance without a guid match receives
the `(path, className)` bucket's entry at the initial cursor plus the
number of earlier non-matched same-key instances (so entries are
consumed in order by an advancing per-key cursor); and that counter is
strictly monotone along the processing order, so each existing entry is
assigned to at most one instance. -/
theorem regenerateSourcemap_filePaths_spec :
    (∀ (items : List InstanceData) (gm : GuidMap) (bm : BucketMap)
        (cur : CursorMap) (i : Nat) (item : InstanceData)
        (fps : List String),
        items.get? i = some item →
        alistLookup gm item.guid = some fps → 0 < fps.length →
        (regenAssign items gm bm cur).get? i = some (item, some fps)) ∧
      (∀ (gm : GuidMap) (bm : BucketMap) (K : PathClassKey)
          (bucket : List (List String)),
        alistLookup bm K = some bucket → (∀ c ∈ bucket, c ≠ []) →
        ∀ (items : List InstanceData) (cur : CursorMap) (i : Nat)
          (item : InstanceData),
          items.get? i = some item → guidMiss gm item = true →
          (item.path, item.className) = K →
          (regenAssign items gm bm cur).get? i =
            some (item, bucket.get? ((alistLookup cur K).getD 0 +
              ((items.take i).filter
                (fun it => guidMiss gm it && sameKey K it)).length))) ∧
      (∀ (gm : GuidMap) (K : PathClassKey) (items : List InstanceData)
          (i j : Nat) (item : InstanceData), i < j →
        items.get? i = some item →
        (guidMiss gm item && sameKey K item) = true →
        ((items.take i).filter
            (fun it => guidMiss gm it && sameKey K it)).length <
          ((items.take j).filter
            (fun it => guidMiss gm it && sameKey K it)).length) :=
  ⟨fun items gm bm cur i item fps =>
      regenAssign_guid_hit gm bm items cur i item fps,
    fun gm bm K bucket hb hne =>
      regenAssign_bucket_formula gm bm K bucket hb hne,
    fun gm K items i j item hij hi hp =>
      filterTake_strict _ items i j item hij hi hp⟩

/-- C8 witness: on a concrete snapshot of three instances over a
concrete existing sourcemap index, the guid-matched instance keeps its
`filePaths` and the second non-matched instance consumes the second
bucket entry. -/
theorem regenerateSourcemap_filePaths_witness :
    (regenAssign c8items c8gm c8bm []).get? 0 =
        some (c8item1, some ["f1.luau"]) ∧
      (regenAssign c8items c8gm c8bm []).get? 2 =
        some (c8item3, some ["b2.luau"]) := by
  constructor
  · exact regenerateSourcemap_filePaths_spec.1 c8items c8gm c8bm [] 0 c8item1
      ["f1.luau"] rfl rfl (by decide)
  · have h := regenerateSourcemap_filePaths_spec.2.1 c8gm c8bm
      (["RS", "A"], "ModuleScript") [["b1.luau"], ["b2.luau"]] rfl
      (by decide) c8items [] 2 c8item3 rfl rfl rfl
    exact h.trans (by decide)

/-- Every instance whose guid is minted outside `[k, bound)` — and none
whose guid comes from the sourcemap — matches the mint value of an
index outside that window, so the filter is empty. -/
theorem minted_filter_zero (mint : Nat → String) (gs : List String)
    (l : List InstanceData) (k bound : Nat)
    (h3 : ∀ inst ∈ l, inst.guid ∈ gs ∨
      ∃ mm, k ≤ mm ∧ mm < bound ∧ inst.guid = mint mm)
    (hinj : ∀ a b, mint a = mint b → a = b)
    (havoid : ∀ mm, mint mm ∉ gs)
    (m : Nat) (hm : m < k ∨ bound ≤ m) :
    l.filter (fun inst => inst.guid = mint m) = [] := by
  rw [List.filter_eq_nil]
  intro inst hmem
  simp only [decide_eq_true_eq]
  intro hEq
  rcases h3 inst hmem with hg | ⟨mm, h₁, h₂, h₃⟩
  · exact havoid m (hEq ▸ hg)
  · have hmm : mm = m := hinj mm m (h₃.symm.trans hEq)
    omega

mutual

/-- The per-node facts behind C9: the counter never decreases; every
produced instance either sits directly below the call path with the
call's parent guid, or has its parent in the produced list with the
path extending the parent's by its own name; every produced guid is a
sourcemap guid or a mint of an index in the consumed counter window;
and, for injective fresh mints, no mint value is used twice. -/
theorem buildVisit_spec (rf : String → Option String) (mint : Nat → String)
    (node : SMNode) (cp : Path) (pg : Option String) (k : Nat) :
    k ≤ (buildVisit rf mint node cp pg k).2 ∧
    (∀ inst ∈ (buildVisit rf mint node cp pg k).1,
      (inst.parentGuid = optWrap pg ∧ inst.path = cp ++ [inst.name]) ∨
      (∃ parent ∈ (buildVisit rf mint node cp pg k).1,
        inst.parentGuid = some (some parent.guid) ∧
        inst.path = parent.path ++ [inst.name])) ∧
    (∀ inst ∈ (buildVisit rf mint node cp pg k).1,
      inst.guid ∈ smGuids node ∨
      ∃ m, k ≤ m ∧ m < (buildVisit rf mint node cp pg k).2 ∧
        inst.guid = mint m) ∧
    ((∀ a b, mint a = mint b → a = b) →
      (∀ m, mint m ∉ smGuids node) →
      ∀ m, ((buildVisit rf mint node cp pg k).1.filter
        (fun inst => inst.guid = mint m)).length ≤ 1) := by
  match node with
  | .mk name cn nguid fps props attrs children =>
  have hL := buildVisitList_spec rf mint children (cp ++ [name])
    (some (buildGuid mint nguid k)) (buildNext nguid k)
  have hstep : k ≤ buildNext nguid k := by
    cases nguid <;> simp [buildNext]
  refine ⟨le_trans hstep hL.1, ?_, ?_, ?_⟩
  · intro inst hmem
    simp only [buildVisit] at hmem ⊢
    rw [List.mem_cons] at hmem
    rcases hmem with rfl | hmem
    · left
      exact ⟨rfl, rfl⟩
    · rcases hL.2.1 inst hmem with ⟨hpar, hpath⟩ | ⟨parent, hpmem, hpar, hpath⟩
      · right
        refine ⟨_, List.mem_cons_self _ _, ?_, ?_⟩
        · exact hpar
        · exact hpath
      · right
        exact ⟨parent, List.mem_cons_of_mem _ hpmem, hpar, hpath⟩
  · intro inst hmem
    simp only [buildVisit] at hmem ⊢
    rw [List.mem_cons] at hmem
    rcases hmem with rfl | hmem
    · cases hg : nguid with
      | some g =>
        left
        simp [smGuids, buildGuid, hg]
      | none =>
        right
        rw [hg] at hL
        simp only [buildNext] at hL
        refine ⟨k, le_refl k, ?_, by simp [buildGuid, hg]⟩
        simp only [buildNext]
        omega
    · rcases hL.2.2.1 inst hmem with hg | ⟨m, h₁, h₂, h₃⟩
      · left
        simp only [smGuids]
        exact List.mem_append_right _ hg
      · right
        exact ⟨m, le_trans hstep h₁, h₂, h₃⟩
  · intro hinj havoid m
    have havoidL : ∀ mm, mint mm ∉ smGuidsList children := by
      intro mm hc
      exact havoid mm (by simp only [smGuids]; exact List.mem_append_right _ hc)
    simp only [buildVisit]
    rw [List.filter_cons]
    cases hg : nguid with
    | some g =>
      rw [hg] at hL
      have hni : ¬ (buildGuid mint (some g) k = mint m) := by
        intro hEq
        apply havoid m
        simp only [smGuids]
        apply List.mem_append_left
        rw [← hEq, hg]
        simp [buildGuid]
      simp only [decide_eq_true_eq, hni, if_false]
      exact hL.2.2.2 hinj havoidL m
    | none =>
      rw [hg] at hL
      simp only [buildGuid, buildNext] at hL ⊢
      by_cases hmk : m = k
      · subst hmk
        have hzero : (buildVisitList rf mint children (cp ++ [name])
            (some (mint m)) (m + 1)).1.filter
            (fun inst => inst.guid = mint m) = [] := by
          apply minted_filter_zero mint (smGuidsList children) _
            (m + 1) _ hL.2.2.1 hinj havoidL
          left
          omega
        simp only [decide_eq_true_eq, if_pos rfl, hzero]
        simp
      · have hni : ¬ (mint k = mint m) := by
          intro hEq
          exact hmk (hinj k m hEq).symm
        simp only [decide_eq_true_eq, hni, if_false]
        exact hL.2.2.2 hinj havoidL m

/-- The forest version of `buildVisit_spec`. -/
theorem buildVisitList_spec (rf : String → Option String)
    (mint : Nat → String) (nodes : List SMNode) (cp : Path)
    (pg : Option String) (k : Nat) :
    k ≤ (buildVisitList rf mint nodes cp pg k).2 ∧
    (∀ inst ∈ (buildVisitList rf mint nodes cp pg k).1,
      (inst.parentGuid = optWrap pg ∧ inst.path = cp ++ [inst.name]) ∨
      (∃ parent ∈ (buildVisitList rf mint nodes cp pg k).1,
        inst.parentGuid = some (some parent.guid) ∧
        inst.path = parent.path ++ [inst.name])) ∧
    (∀ inst ∈ (buildVisitList rf mint nodes cp pg k).1,
      inst.guid ∈ smGuidsList nodes ∨
      ∃ m, k ≤ m ∧ m < (buildVisitList rf mint nodes cp pg k).2 ∧
        inst.guid = mint m) ∧
    ((∀ a b, mint a = mint b → a = b) →
      (∀ m, mint m ∉ smGuidsList nodes) →
      ∀ m, ((buildVisitList rf mint nodes cp pg k).1.filter
        (fun inst => inst.guid = mint m)).length ≤ 1) := by
  match nodes with
  | [] =>
    refine ⟨le_refl k, ?_, ?_, ?_⟩
    · intro inst hmem
      simp [buildVisitList] at hmem
    · intro inst hmem
      simp [buildVisitList] at hmem
    · intro hinj havoid m
      simp [buildVisitList]
  | n :: rest =>
    have hN := buildVisit_spec rf mint n cp pg k
    have hR := buildVisitList_spec rf mint rest cp pg
      (buildVisit rf mint n cp pg k).2
    have havoid_split : ∀ g, g ∈ smGuids n ∨ g ∈ smGuidsList rest →
        g ∈ smGuidsList (n :: rest) := by
      intro g hg
      simp only [smGuidsList]
      rcases hg with hg | hg
      · exact List.mem_append_left _ hg
      · exact List.mem_append_right _ hg
    refine ⟨le_trans hN.1 hR.1, ?_, ?_, ?_⟩
    · intro inst hmem
      simp only [buildVisitList] at hmem ⊢
      rw [List.mem_append] at hmem
      rcases hmem with hmem | hmem
      · rcases hN.2.1 inst hmem with h | ⟨parent, hpmem, hpar, hpath⟩
        · left
          exact h
        · right
          exact ⟨parent, List.mem_append_left _ hpmem, hpar, hpath⟩
      · rcases hR.2.1 inst hmem with h | ⟨parent, hpmem, hpar, hpath⟩
        · left
          exact h
        · right
          exact ⟨parent, List.mem_append_right _ hpmem, hpar, hpath⟩
    · intro inst hmem
      simp only [buildVisitList] at hmem ⊢
      rw [List.mem_append] at hmem
      rcases hmem with hmem | hmem
      · rcases hN.2.2.1 inst hmem with hg | ⟨m, h₁, h₂, h₃⟩
        · left
          exact havoid_split _ (Or.inl hg)
        · right
          exact ⟨m, h₁, lt_of_lt_of_le h₂ hR.1, h₃⟩
      · rcases hR.2.2.1 inst hmem with hg | ⟨m, h₁, h₂, h₃⟩
        · left
          exact havoid_split _ (Or.inr hg)
        · right
          exact ⟨m, le_trans hN.1 h₁, h₂, h₃⟩
    · intro hinj havoid m
      have havoidN : ∀ mm, mint mm ∉ smGuids n := by
        intro mm hc
        exact havoid mm (havoid_split _ (Or.inl hc))
      have havoidR : ∀ mm, mint mm ∉ smGuidsList rest := by
        intro mm hc
        exact havoid mm (havoid_split _ (Or.inr hc))
      simp only [buildVisitList]
      rw [List.filter_append, List.length_append]
      by_cases hm : m < (buildVisit rf mint n cp pg k).2
      · have hzero : (buildVisitList rf mint rest cp pg
            (buildVisit rf mint n cp pg k).2).1.filter
            (fun inst => inst.guid = mint m) = [] :=
          minted_filter_zero mint (smGuidsList rest) _ _ _
            hR.2.2.1 hinj havoidR m (Or.inl hm)
        rw [hzero]
        simpa using hN.2.2.2 hinj havoidN m
      · have hzero : (buildVisit rf mint n cp pg k).1.filter
            (fun inst => inst.guid = mint m) = [] :=
          minted_filter_zero mint (smGuids n) _ k _
            hN.2.2.1 hinj havoidN m (Or.inr (by omega))
        rw [hzero]
        simpa using hR.2.2.2 hinj havoidR m

end

/-- C9: `buildInstancesFromSourcemap` returns a list sorted in
non-decreasing path-length order in which every instance either is a
root-level node (no parent guid, path its own name) or has its parent
in the list with its path extending the parent's path by its own name;
every guid is either a guid of the sourcemap or freshly minted within
the consumed counter window; and for an injective mint avoiding the
sourcemap's guids, no minted guid is assigned twice. -/
theorem buildInstancesFromSourcemap_spec :
    (∀ (rf : String → Option String) (mint : Nat → String) (root : SMRoot),
      List.Sorted (fun a b : InstanceData => a.path.length ≤ b.path.length)
        (buildInstancesFromSourcemap rf mint root)) ∧
      (∀ (rf : String → Option String) (mint : Nat → String) (root : SMRoot),
        ∀ inst ∈ buildInstancesFromSourcemap rf mint root,
        (inst.parentGuid = none ∧ inst.path = [inst.name]) ∨
        (∃ parent ∈ buildInstancesFromSourcemap rf mint root,
          inst.parentGuid = some (some parent.guid) ∧
          inst.path = parent.path ++ [inst.name])) ∧
      (∀ (rf : String → Option String) (mint : Nat → String) (root : SMRoot),
        ∀ inst ∈ buildInstancesFromSourcemap rf mint root,
        inst.guid ∈ smGuidsList root.children ∨
        ∃ m, m < (buildVisitList rf mint root.children [] none 0).2 ∧
          inst.guid = mint m) ∧
      (∀ (rf : String → Option String) (mint : Nat → String) (root : SMRoot),
        (∀ a b, mint a = mint b → a = b) →
        (∀ m, mint m ∉ smGuidsList root.children) →
        ∀ m, ((buildInstancesFromSourcemap rf mint root).filter
          (fun inst => inst.guid = mint m)).length ≤ 1) := by
  refine ⟨?_, ?_, ?_, ?_⟩
  · intro rf mint root
    have hs := @List.sorted_mergeSort InstanceData
      (fun a b : InstanceData => decide (a.path.length ≤ b.path.length))
      (fun a b c hab hbc => by
        simp only [decide_eq_true_eq] at hab hbc ⊢
        omega)
      (fun a b => by
        simp only [Bool.or_eq_true, decide_eq_true_eq]
        omega)
      (buildVisitList rf mint root.children [] none 0).1
    exact hs.imp fun h => by simpa using h
  · intro rf mint root inst hmem
    have hS := buildVisitList_spec rf mint root.children [] none 0
    have hmem' : inst ∈ (buildVisitList rf mint root.children [] none 0).1 :=
      (List.mergeSort_perm _ _).mem_iff.mp hmem
    rcases hS.2.1 inst hmem' with ⟨hpar, hpath⟩ | ⟨parent, hp, h₁, h₂⟩
    · left
      exact ⟨hpar, by simpa using hpath⟩
    · right
      exact ⟨parent, (List.mergeSort_perm _ _).mem_iff.mpr hp, h₁, h₂⟩
  · intro rf mint root inst hmem
    have hS := buildVisitList_spec rf mint root.children [] none 0
    have hmem' : inst ∈ (buildVisitList rf mint root.children [] none 0).1 :=
      (List.mergeSort_perm _ _).mem_iff.mp hmem
    rcases hS.2.2.1 inst hmem' with hg | ⟨m, _, h₂, h₃⟩
    · left
      exact hg
    · right
      exact ⟨m, h₂, h₃⟩
  · intro rf mint root hinj havoid m
    have hS := buildVisitList_spec rf mint root.children [] none 0
    have hperm := (List.mergeSort_perm
      (buildVisitList rf mint root.children [] none 0).1
      (fun a b : InstanceData =>
        decide (a.path.length ≤ b.path.length))).filter
      (fun inst => decide (inst.guid = mint m))
    rw [buildInstancesFromSourcemap, hperm.length_eq]
    exact hS.2.2.2 hinj havoid m

/-- C9 witness: the list built from a concrete sourcemap root is sorted
by path length. -/
theorem buildInstancesFromSourcemap_witness :
    List.Sorted (fun a b : InstanceData => a.path.length ≤ b.path.length)
      (buildInstancesFromSourcemap (fun _ => none)
        (fun n => String.mk (List.replicate n 'x')) c9root) :=
  buildInstancesFromSourcemap_spec.1 _ _ c9root

section AListMember

variable {κ : Type} {β : Type} [DecidableEq κ]

/-- Membership determines the lookup when keys are distinct. -/
theorem alistLookup_of_mem_nodup (l : List (κ × β)) (k : κ) (v : β)
    (hnd : (l.map Prod.fst).Nodup) (h : (k, v) ∈ l) :
    alistLookup l k = some v := by
  induction l with
  | nil => simp at h
  | cons hd tl ih =>
    obtain ⟨k₀, v₀⟩ := hd
    simp only [List.map_cons, List.nodup_cons] at hnd
    rcases List.mem_cons.mp h with h | h
    · injection h with h₁ h₂
      subst h₁
      subst h₂
      simp [alistLookup]
    · have hk : k₀ ≠ k := by
        intro he
        subst he
        exact hnd.1 (List.mem_map.mpr ⟨(k₀, v), h, rfl⟩)
      simp only [alistLookup, if_neg hk]
      exact ih hnd.2 h

/-- Erasure only removes entries. -/
theorem mem_of_alistErase {l : List (κ × β)} {k : κ} {x : κ × β}
    (h : x ∈ alistErase l k) : x ∈ l := by
  induction l with
  | nil => simpa [alistErase] using h
  | cons hd tl ih =>
    obtain ⟨k₀, v₀⟩ := hd
    by_cases h₀ : k₀ = k
    · simp only [alistErase, if_pos h₀] at h
      exact List.mem_cons_of_mem _ h
    · simp only [alistErase, if_neg h₀] at h
      rcases List.mem_cons.mp h with h | h
      · exact h ▸ List.mem_cons_self _ _
      · exact List.mem_cons_of_mem _ (ih h)

/-- An entry under a different key survives erasure. -/
theorem mem_alistErase_of_ne {l : List (κ × β)} {k : κ} {x : κ × β}
    (h : x ∈ l) (hne : x.1 ≠ k) : x ∈ alistErase l k := by
  induction l with
  | nil => simp at h
  | cons hd tl ih =>
    obtain ⟨k₀, v₀⟩ := hd
    rcases List.mem_cons.mp h with h | h
    · subst h
      have hk : k₀ ≠ k := hne
      simp [alistErase, if_neg hk]
    · by_cases h₀ : k₀ = k
      · simpa [alistErase, h₀] using h
      · simp only [alistErase, if_neg h₀]
        exact List.mem_cons_of_mem _ (ih h)

/-- Every entry of `alistSet` is the new pair or an old entry. -/
theorem mem_alistSet_cases {l : List (κ × β)} {k : κ} {v : β} {x : κ × β}
    (h : x ∈ alistSet l k v) : x = (k, v) ∨ x ∈ l := by
  induction l with
  | nil => simpa [alistSet] using h
  | cons hd tl ih =>
    obtain ⟨k₀, v₀⟩ := hd
    by_cases h₀ : k₀ = k
    · subst h₀
      simp only [alistSet, if_pos rfl] at h
      rcases List.mem_cons.mp h with h | h
      · exact Or.inl h
      · exact Or.inr (List.mem_cons_of_mem _ h)
    · simp only [alistSet, if_neg h₀] at h
      rcases List.mem_cons.mp h with h | h
      · exact Or.inr (h ▸ List.mem_cons_self _ _)
      · rcases ih h with h | h
        · exact Or.inl h
        · exact Or.inr (List.mem_cons_of_mem _ h)

/-- The written pair is an entry of `alistSet`. -/
theorem mem_alistSet_self (l : List (κ × β)) (k : κ) (v : β) :
    (k, v) ∈ alistSet l k v := by
  induction l with
  | nil => simp [alistSet]
  | cons hd tl ih =>
    obtain ⟨k₀, v₀⟩ := hd
    by_cases h₀ : k₀ = k
    · subst h₀
      simp [alistSet]
    · simp only [alistSet, if_neg h₀]
      exact List.mem_cons_of_mem _ ih

/-- An entry under a different key survives `alistSet`. -/
theorem mem_alistSet_of_ne {l : List (κ × β)} {k : κ} {v : β} {x : κ × β}
    (h : x ∈ l) (hne : x.1 ≠ k) : x ∈ alistSet l k v := by
  induction l with
  | nil => simp at h
  | cons hd tl ih =>
    obtain ⟨k₀, v₀⟩ := hd
    rcases List.mem_cons.mp h with h | h
    · subst h
      have hk : k₀ ≠ k := hne
      simp [alistSet, if_neg hk]
    · by_cases h₀ : k₀ = k
      · subst h₀
        simp only [alistSet, if_pos rfl]
        exact List.mem_cons_of_mem _ h
      · simp only [alistSet, if_neg h₀]
        exact List.mem_cons_of_mem _ (ih h)

/-- The keys after erasure form a sublist of the keys. -/
theorem alistErase_keys_sublist (l : List (κ × β)) (k : κ) :
    ((alistErase l k).map Prod.fst).Sublist (l.map Prod.fst) := by
  induction l with
  | nil => simp [alistErase]
  | cons hd tl ih =>
    obtain ⟨k₀, v₀⟩ := hd
    by_cases h₀ : k₀ = k
    · simp only [alistErase, if_pos h₀, List.map_cons]
      exact (List.sublist_cons_self _ _)
    · simp only [alistErase, if_neg h₀, List.map_cons]
      exact ih.cons₂ _

/-- Key distinctness survives erasure. -/
theorem nodup_keys_alistErase (l : List (κ × β)) (k : κ)
    (h : (l.map Prod.fst).Nodup) : ((alistErase l k).map Prod.fst).Nodup :=
  (alistErase_keys_sublist l k).nodup h

/-- `alistSet` keeps the keys when the key is present, else appends it. -/
theorem alistSet_map_fst (l : List (κ × β)) (k : κ) (v : β) :
    (alistSet l k v).map Prod.fst =
      (if (alistLookup l k).isSome then l.map Prod.fst
       else l.map Prod.fst ++ [k]) := by
  induction l with
  | nil => simp [alistSet, alistLookup]
  | cons hd tl ih =>
    obtain ⟨k₀, v₀⟩ := hd
    by_cases h₀ : k₀ = k
    · subst h₀
      simp [alistSet, alistLookup]
    · simp only [alistSet, if_neg h₀, List.map_cons, alistLookup, ih]
      by_cases hl : (alistLookup tl k).isSome
      · simp [hl, h₀]
      · simp [hl, h₀]

/-- Key distinctness survives `alistSet`. -/
theorem nodup_keys_alistSet (l : List (κ × β)) (k : κ) (v : β)
    (h : (l.map Prod.fst).Nodup) : ((alistSet l k v).map Prod.fst).Nodup := by
  rw [alistSet_map_fst]
  by_cases hl : (alistLookup l k).isSome
  · simpa [hl]
  · have hk : k ∉ l.map Prod.fst := by
      intro hmem
      rcases List.mem_map.mp hmem with ⟨⟨k₁, v₁⟩, hmem₁, he⟩
      subst he
      have := alistLookup_of_mem_nodup l _ v₁ h hmem₁
      rw [this] at hl
      simp at hl
    simp only [hl, Bool.false_eq_true, if_false]
    rw [List.nodup_append]
    refine ⟨h, List.nodup_singleton k, ?_⟩
    intro a ha hb
    rw [List.mem_singleton] at hb
    subst hb
    exact hk ha

end AListMember

/-- Reachability from a guid absent from the table is trivial. -/
theorem reach_of_lookup_none {s : List (String × TreeNode)} {c h : String}
    (hc : alistLookup s c = none) (hr : Reach s c h) : h = c := by
  cases hr with
  | refl => rfl
  | step n hg hc' hr' => rw [hg] at hc; cases hc

/-- The edge form of `DepthOK`: along a child edge with both ends in
the table, the path strictly lengthens. -/
theorem depthOK_edge {s : List (String × TreeNode)} (hD : DepthOK s)
    {g c : String} {n m : TreeNode} (hg : alistLookup s g = some n)
    (hc : c ∈ n.children) (hm : alistLookup s c = some m) :
    n.path.length < m.path.length :=
  hD (g, n) (alistLookup_mem hg) c hc (c, m) (alistLookup_mem hm) rfl

/-- Along reachability, the path length never decreases. -/
theorem reach_depth_le {s : List (String × TreeNode)} (hD : DepthOK s)
    {x h : String} (hr : Reach s x h) :
    ∀ nx nh, alistLookup s x = some nx → alistLookup s h = some nh →
      nx.path.length ≤ nh.path.length := by
  induction hr with
  | refl g =>
    intro nx nh hx hh
    rw [hx] at hh
    injection hh with hh
    rw [hh]
  | @step g c h' n hg hc hr ih =>
    intro nx nh hx hh
    have hEq : n = nx := by
      rw [hg] at hx
      injection hx
    subst hEq
    cases hcl : alistLookup s c with
    | none =>
      have := reach_of_lookup_none hcl hr
      subst this
      rw [hcl] at hh
      cases hh
    | some nc =>
      have h₁ := depthOK_edge hD hg hc hcl
      have h₂ := ih nc nh hcl hh
      omega

/-- Reachability survives any store change that keeps every node except
one strictly shallower than the start. -/
theorem reach_preserve_above {s s' : List (String × TreeNode)}
    {pg : String} {p : TreeNode} (hD : DepthOK s)
    (hpg : alistLookup s pg = some p)
    (hpres : ∀ y, y ≠ pg → alistLookup s' y = alistLookup s y) :
    ∀ {x h : String}, Reach s x h →
      ∀ nx, alistLookup s x = some nx → p.path.length < nx.path.length →
        Reach s' x h := by
  intro x h hr
  induction hr with
  | refl g =>
    intro nx _ _
    exact Reach.refl g
  | @step g c h' n hg hc hr ih =>
    intro nx hx hdep
    have hEq : n = nx := by
      rw [hg] at hx
      injection hx
    subst hEq
    have hxpg : g ≠ pg := by
      intro he
      rw [he, hpg] at hg
      injection hg with hg
      rw [hg] at hdep
      omega
    have hx' : alistLookup s' g = some n := by
      rw [hpres _ hxpg]
      exact hg
    cases hcl : alistLookup s c with
    | none =>
      have hhc := reach_of_lookup_none hcl hr
      rw [hhc]
      exact Reach.step n hx' hc (Reach.refl c)
    | some nc =>
      have h₁ := depthOK_edge hD hg hc hcl
      exact Reach.step n hx' hc (ih nc hcl (by omega))

/-- Reachability is monotone under shrinking the store and the
children lists. -/
theorem reach_mono {s s' : List (String × TreeNode)}
    (hsub : ∀ g n', alistLookup s' g = some n' →
      ∃ n, alistLookup s g = some n ∧ ∀ c ∈ n'.children, c ∈ n.children) :
    ∀ {x h : String}, Reach s' x h → Reach s x h := by
  intro x h hr
  induction hr with
  | refl g => exact Reach.refl g
  | step n hg hc hr ih =>
    rcases hsub _ _ hg with ⟨m, hm, hsubc⟩
    exact Reach.step m hm (hsubc _ hc) ih

/-- `DepthOK` restricts to any entrywise-smaller table. -/
theorem depthOK_of_mem_sub {s s' : List (String × TreeNode)}
    (hD : DepthOK s)
    (hsub : ∀ e ∈ s', (e.1, e.2.guid) = (e.1, e.2.guid) → e ∈ s) :
    DepthOK s' := by
  intro e he c hc f hf hfc
  exact hD e (hsub e he rfl) c hc f (hsub f hf rfl) hfc

/-- `DepthOK` survives erasure. -/
theorem depthOK_alistErase {s : List (String × TreeNode)} (hD : DepthOK s)
    (k : String) : DepthOK (alistErase s k) := by
  intro e he c hc f hf hfc
  exact hD e (mem_of_alistErase he) c hc f (mem_of_alistErase hf) hfc

/-- `DepthOK` survives replacing a node by one with the same path and
fewer children. -/
theorem depthOK_alistSet_shrink {s : List (String × TreeNode)}
    (hD : DepthOK s) {pg : String} {p p' : TreeNode}
    (hpg : alistLookup s pg = some p)
    (hch : ∀ c ∈ p'.children, c ∈ p.children)
    (hpath : p'.path = p.path) :
    DepthOK (alistSet s pg p') := by
  intro e he c hc f hf hfc
  have hpmem : (pg, p) ∈ s := alistLookup_mem hpg
  rcases mem_alistSet_cases he with he' | he' <;>
    rcases mem_alistSet_cases hf with hf' | hf'
  · subst he'
    subst hf'
    simp only at hc hfc ⊢
    rw [hpath]
    exact hD (pg, p) hpmem c (hch c hc) (pg, p) hpmem hfc
  · subst he'
    simp only at hc ⊢
    rw [hpath]
    exact hD (pg, p) hpmem c (hch c hc) f hf' hfc
  · subst hf'
    simp only at hfc ⊢
    rw [hpath]
    exact hD e he' c hc (pg, p) hpmem hfc
  · exact hD e he' c hc f hf' hfc

/-- `deleteLoop` on the empty stack. -/
theorem deleteLoop_nil (nodes : List (String × TreeNode))
    (idx : List (Path × List String)) : deleteLoop [] nodes idx = (nodes, idx) := by
  rw [deleteLoop]

/-- `deleteLoop` skips a popped guid that is not in the table. -/
theorem deleteLoop_cons_none (g : String) (rest : List String)
    (nodes : List (String × TreeNode)) (idx : List (Path × List String))
    (h : alistLookup nodes g = none) :
    deleteLoop (g :: rest) nodes idx = deleteLoop rest nodes idx := by
  rw [deleteLoop]
  split
  · rfl
  · rename_i n heq
    rw [h] at heq
    cases heq

/-- `deleteLoop` deletes a popped guid that is in the table and pushes
its children. -/
theorem deleteLoop_cons_some (g : String) (rest : List String)
    (nodes : List (String × TreeNode)) (idx : List (Path × List String))
    (n : TreeNode) (h : alistLookup nodes g = some n) :
    deleteLoop (g :: rest) nodes idx =
      deleteLoop (n.children.reverse ++ rest) (alistErase nodes g)
        (idxRemove idx n.path g) := by
  rw [deleteLoop]
  split
  · rename_i heq
    rw [h] at heq
    cases heq
  · rename_i m heq
    rw [h] at heq
    injection heq with heq
    rw [heq]

/-- Any entry of the list makes its key's lookup succeed. -/
theorem alistLookup_isSome_of_mem {κ β : Type} [DecidableEq κ]
    {l : List (κ × β)} {e : κ × β} (h : e ∈ l) :
    (alistLookup l e.1).isSome := by
  induction l with
  | nil => simp at h
  | cons hd tl ih =>
    obtain ⟨k₀, v₀⟩ := hd
    by_cases h₀ : k₀ = e.1
    · simp [alistLookup, h₀]
    · rcases List.mem_cons.mp h with h | h
      · rw [h] at h₀
        exact absurd rfl h₀
      · simp only [alistLookup, if_neg h₀]
        exact ih h

/-- A lookup that succeeds after erasure succeeded before. -/
theorem alistLookup_erase_imp {κ β : Type} [DecidableEq κ]
    {l : List (κ × β)} {g k : κ} {v : β}
    (hnd : (l.map Prod.fst).Nodup)
    (h : alistLookup (alistErase l g) k = some v) :
    alistLookup l k = some v := by
  by_cases hk : g = k
  · subst hk
    rw [alistLookup_erase_self l g hnd] at h
    cases h
  · rwa [alistLookup_erase_other l g k hk] at h

/-- Rewriting a key to the value it already has is the identity. -/
theorem alistSet_lookup_eq {κ β : Type} [DecidableEq κ]
    {l : List (κ × β)} {k : κ} {v : β}
    (h : alistLookup l k = some v) : alistSet l k v = l := by
  induction l with
  | nil => simp [alistLookup] at h
  | cons hd tl ih =>
    obtain ⟨k₀, v₀⟩ := hd
    by_cases h₀ : k₀ = k
    · subst h₀
      have hv : v₀ = v := by simpa [alistLookup] using h
      subst hv
      simp [alistSet]
    · simp only [alistLookup, if_neg h₀] at h
      simp [alistSet, if_neg h₀, ih h]

/-- Erasing one key either leaves a reachability fact intact or the
erased key could already reach the target. -/
theorem reach_erase_or {s : List (String × TreeNode)} {g : String}
    (hnd : StoreKeysNodup s) :
    ∀ {x h : String}, Reach s x h →
      Reach (alistErase s g) x h ∨ Reach s g h := by
  intro x h hr
  induction hr with
  | refl a => exact Or.inl (Reach.refl a)
  | @step a c h' n hg hc hr ih =>
    by_cases hag : a = g
    · subst hag
      exact Or.inr (Reach.step n hg hc hr)
    · rcases ih with ih | ih
      · left
        refine Reach.step n ?_ hc ih
        rwa [alistLookup_erase_other s g a (fun he => hag he.symm)]
      · exact Or.inr ih

/-- The erased table is entrywise below the original. -/
theorem erase_store_sub {s : List (String × TreeNode)} {g : String}
    (hnd : StoreKeysNodup s) :
    ∀ y n', alistLookup (alistErase s g) y = some n' →
      ∃ m, alistLookup s y = some m ∧ ∀ c ∈ n'.children, c ∈ m.children :=
  fun _ n' h => ⟨n', alistLookup_erase_imp hnd h, fun _ hc => hc⟩

/-- Every lookup that survives the delete loop was in the initial table. -/
theorem deleteLoop_lookup_mono :
    ∀ (stack : List String) (nodes : List (String × TreeNode))
      (idx : List (Path × List String)), StoreKeysNodup nodes →
      ∀ k v, alistLookup (deleteLoop stack nodes idx).1 k = some v →
        alistLookup nodes k = some v := by
  intro stack nodes idx
  induction stack, nodes, idx using deleteLoop.induct with
  | case1 nodes idx =>
    intro _ k v h
    rwa [deleteLoop_nil] at h
  | case2 nodes idx g rest hg ih =>
    intro hnd k v h
    rw [deleteLoop_cons_none g rest nodes idx hg] at h
    exact ih hnd k v h
  | case3 nodes idx g rest n hg ih =>
    intro hnd k v h
    rw [deleteLoop_cons_some g rest nodes idx n hg] at h
    have h₁ := ih (nodup_keys_alistErase _ _ hnd) k v h
    exact alistLookup_erase_imp hnd h₁

/-- The delete loop removes every node reachable from the stack. -/
theorem deleteLoop_reach_none :
    ∀ (stack : List String) (nodes : List (String × TreeNode))
      (idx : List (Path × List String)), StoreKeysNodup nodes →
      DepthOK nodes →
      ∀ k, (∃ g ∈ stack, Reach nodes g k) →
        alistLookup (deleteLoop stack nodes idx).1 k = none := by
  intro stack nodes idx
  induction stack, nodes, idx using deleteLoop.induct with
  | case1 nodes idx =>
    intro _ _ k hk
    rcases hk with ⟨g, hg, _⟩
    simp at hg
  | case2 nodes idx g rest hg ih =>
    intro hnd hD k hk
    rw [deleteLoop_cons_none g rest nodes idx hg]
    rcases hk with ⟨g', hg', hr⟩
    rcases List.mem_cons.mp hg' with hg' | hg'
    · subst hg'
      have hk := reach_of_lookup_none hg hr
      subst hk
      cases hres : alistLookup (deleteLoop rest nodes idx).1 k with
      | none => rfl
      | some v =>
        have := deleteLoop_lookup_mono rest nodes idx hnd k v hres
        rw [hg] at this
        cases this
    · exact ih hnd hD k ⟨g', hg', hr⟩
  | case3 nodes idx g rest n hg ih =>
    intro hnd hD k hk
    rw [deleteLoop_cons_some g rest nodes idx n hg]
    have hnd' := nodup_keys_alistErase nodes g hnd
    have hD' := depthOK_alistErase hD g
    have main : Reach nodes g k →
        alistLookup (deleteLoop (n.children.reverse ++ rest)
          (alistErase nodes g) (idxRemove idx n.path g)).1 k = none := by
      intro hr
      cases hr with
      | refl =>
        cases hres : alistLookup (deleteLoop (n.children.reverse ++ rest)
            (alistErase nodes g) (idxRemove idx n.path g)).1 g with
        | none => rfl
        | some v =>
          have := deleteLoop_lookup_mono _ _ _ hnd' g v hres
          rw [alistLookup_erase_self nodes g hnd] at this
          cases this
      | step n' hg' hc hrc =>
        have hEq : n = n' := by
          rw [hg] at hg'
          injection hg'
        subst hEq
        rename_i c
        cases hcl : alistLookup nodes c with
        | none =>
          have hk := reach_of_lookup_none hcl hrc
          subst hk
          cases hres : alistLookup (deleteLoop (n.children.reverse ++ rest)
              (alistErase nodes g) (idxRemove idx n.path g)).1 k with
          | none => rfl
          | some v =>
            have := deleteLoop_lookup_mono _ _ _ hnd' k v hres
            have := alistLookup_erase_imp hnd this
            rw [hcl] at this
            cases this
        | some nc =>
          have hdep := depthOK_edge hD hg hc hcl
          have hr' : Reach (alistErase nodes g) c k := by
            refine reach_preserve_above hD hg
              (fun y hy => alistLookup_erase_other nodes g y
                (fun he => hy he.symm)) hrc nc hcl hdep
          refine ih hnd' hD' k ⟨c, ?_, hr'⟩
          exact List.mem_append.mpr (Or.inl (List.mem_reverse.mpr hc))
    rcases hk with ⟨g', hg', hr⟩
    rcases List.mem_cons.mp hg' with hg' | hg'
    · subst hg'
      exact main hr
    · rcases reach_erase_or hnd hr with hr' | hr'
      · exact ih hnd' hD' k ⟨g', List.mem_append.mpr (Or.inr hg'), hr'⟩
      · exact main hr'

/-- The delete loop leaves every node unreachable from the stack alone. -/
theorem deleteLoop_frame :
    ∀ (stack : List String) (nodes : List (String × TreeNode))
      (idx : List (Path × List String)), StoreKeysNodup nodes →
      ∀ k v, alistLookup nodes k = some v →
        (∀ g ∈ stack, ¬ Reach nodes g k) →
        alistLookup (deleteLoop stack nodes idx).1 k = some v := by
  intro stack nodes idx
  induction stack, nodes, idx using deleteLoop.induct with
  | case1 nodes idx =>
    intro _ k v hkv _
    rwa [deleteLoop_nil]
  | case2 nodes idx g rest hg ih =>
    intro hnd k v hkv hnr
    rw [deleteLoop_cons_none g rest nodes idx hg]
    exact ih hnd k v hkv fun g' hg' => hnr g' (List.mem_cons_of_mem _ hg')
  | case3 nodes idx g rest n hg ih =>
    intro hnd k v hkv hnr
    rw [deleteLoop_cons_some g rest nodes idx n hg]
    have hkg : k ≠ g := by
      intro he
      subst he
      exact hnr k (List.mem_cons_self _ _) (Reach.refl k)
    have hkv' : alistLookup (alistErase nodes g) k = some v := by
      rwa [alistLookup_erase_other nodes g k fun he => hkg he.symm]
    refine ih (nodup_keys_alistErase _ _ hnd) k v hkv' ?_
    intro g'' hmem hr'
    have hr : Reach nodes g'' k := reach_mono (erase_store_sub hnd) hr'
    rcases List.mem_append.mp hmem with hmem | hmem
    · have hc : g'' ∈ n.children := List.mem_reverse.mp hmem
      exact hnr g (List.mem_cons_self _ _) (Reach.step n hg hc hr)
    · exact hnr g'' (List.mem_cons_of_mem _ hmem) hr

/-- With distinct keys, the value of a key is determined. -/
theorem alist_uniq_val {κ β : Type} [DecidableEq κ] {l : List (κ × β)}
    (hnd : (l.map Prod.fst).Nodup) {k : κ} {v : β}
    (hkv : alistLookup l k = some v) : ∀ f ∈ l, f.1 = k → f.2 = v := by
  intro f hf hfk
  have hlf : alistLookup l f.1 = some f.2 :=
    alistLookup_of_mem_nodup l f.1 f.2 hnd hf
  rw [hfk, hkv] at hlf
  injection hlf with hlf
  exact hlf.symm

/-- With distinct keys, an entry of `alistSet` under the written key is
the written pair. -/
theorem mem_alistSet_eq_of_key {κ β : Type} [DecidableEq κ]
    {l : List (κ × β)} {k : κ} {v : β} {e : κ × β}
    (hnd : (l.map Prod.fst).Nodup) (he : e ∈ alistSet l k v)
    (hk : e.1 = k) : e = (k, v) := by
  have hlf : alistLookup (alistSet l k v) e.1 = some e.2 :=
    alistLookup_of_mem_nodup _ e.1 e.2 (nodup_keys_alistSet l k v hnd) he
  rw [hk, alistLookup_set_self] at hlf
  injection hlf with hlf
  obtain ⟨e₁, e₂⟩ := e
  simp only at hk hlf
  rw [hk, hlf]

/-- One iteration of the delete loop keeps invariant 5: removing a node
from the table together with its path-index registration. -/
theorem idxOK_step {nodes : List (String × TreeNode)}
    {idx : List (Path × List String)}
    (hnd : StoreKeysNodup nodes) (hI : IdxOK nodes idx)
    {g : String} {n : TreeNode} (hg : alistLookup nodes g = some n) :
    IdxOK (alistErase nodes g) (idxRemove idx n.path g) := by
  obtain ⟨hknd, hbuck⟩ := hI
  have huniq : ∀ f ∈ nodes, f.1 = g → f.2 = n := alist_uniq_val hnd hg
  have keyOf : ∀ e ∈ idx, ∀ g' ∈ e.2, g' = g → e.1 = n.path := by
    intro e he g' hg' hgg
    rcases (hbuck e he).2 g' hg' with ⟨f, hf, hfg, hfp⟩
    have hfg' : f.1 = g := by rw [hfg, hgg]
    rw [huniq f hf hfg'] at hfp
    exact hfp.symm
  have survive : ∀ e ∈ idx, ∀ g' ∈ e.2, g' ≠ g →
      ∃ f ∈ alistErase nodes g, f.1 = g' ∧ f.2.path = e.1 := by
    intro e he g' hg' hgg
    rcases (hbuck e he).2 g' hg' with ⟨f, hf, hfg, hfp⟩
    refine ⟨f, mem_alistErase_of_ne hf ?_, hfg, hfp⟩
    rw [hfg]
    exact hgg
  cases hlk : alistLookup idx n.path with
  | none =>
    simp only [idxRemove, hlk]
    refine ⟨hknd, ?_⟩
    intro e he
    refine ⟨(hbuck e he).1, ?_⟩
    intro g' hg'
    by_cases hgg : g' = g
    · exfalso
      have hpe := keyOf e he g' hg' hgg
      have hsome := alistLookup_isSome_of_mem he
      rw [hpe, hlk] at hsome
      cases hsome
    · exact survive e he g' hg' hgg
  | some bucket =>
    have hBmem : (n.path, bucket) ∈ idx := alistLookup_mem hlk
    have hBnodup : bucket.Nodup := (hbuck _ hBmem).1
    by_cases hemp : bucket.erase g = []
    · simp only [idxRemove, hlk, if_pos hemp]
      refine ⟨nodup_keys_alistErase _ _ hknd, ?_⟩
      intro e he
      have he' := mem_of_alistErase he
      refine ⟨(hbuck e he').1, ?_⟩
      intro g' hg'
      by_cases hgg : g' = g
      · exfalso
        have hpe := keyOf e he' g' hg' hgg
        have hsome := alistLookup_isSome_of_mem he
        rw [hpe, alistLookup_erase_self idx n.path hknd] at hsome
        cases hsome
      · exact survive e he' g' hg' hgg
    · simp only [idxRemove, hlk, if_neg hemp]
      refine ⟨nodup_keys_alistSet _ _ _ hknd, ?_⟩
      intro e he
      by_cases hkey : e.1 = n.path
      · have heq := mem_alistSet_eq_of_key hknd he hkey
        subst heq
        refine ⟨hBnodup.erase g, ?_⟩
        intro g' hg'
        have hgb := (hBnodup.mem_erase_iff).mp hg'
        exact survive _ hBmem g' hgb.2 hgb.1
      · have he' : e ∈ idx := by
          rcases mem_alistSet_cases he with he' | he'
          · exfalso
            rw [he'] at hkey
            exact hkey rfl
          · exact he'
        refine ⟨(hbuck e he').1, ?_⟩
        intro g' hg'
        by_cases hgg : g' = g
        · exact absurd (keyOf e he' g' hg' hgg) hkey
        · exact survive e he' g' hg' hgg

/-- The delete loop preserves table-key distinctness and invariant 5. -/
theorem deleteLoop_inv :
    ∀ (stack : List String) (nodes : List (String × TreeNode))
      (idx : List (Path × List String)), StoreKeysNodup nodes →
      IdxOK nodes idx →
      StoreKeysNodup (deleteLoop stack nodes idx).1 ∧
        IdxOK (deleteLoop stack nodes idx).1 (deleteLoop stack nodes idx).2 := by
  intro stack nodes idx
  induction stack, nodes, idx using deleteLoop.induct with
  | case1 nodes idx =>
    intro hnd hI
    rw [deleteLoop_nil]
    exact ⟨hnd, hI⟩
  | case2 nodes idx g rest hg ih =>
    intro hnd hI
    rw [deleteLoop_cons_none g rest nodes idx hg]
    exact ih hnd hI
  | case3 nodes idx g rest n hg ih =>
    intro hnd hI
    rw [deleteLoop_cons_some g rest nodes idx n hg]
    exact ih (nodup_keys_alistErase _ _ hnd) (idxOK_step hnd hI hg)

/-- C5.  `deleteInstance` on a guid absent from the node table returns
`null` and leaves the manager unchanged.  On a present guid it returns
the removed node (children cleared, parent dropped), removes the guid
from its parent's children map, removes the guid and every node of its
subtree from the node table and from every path-index bucket, and keeps
every other node (the assumptions are the spec's tree invariants:
distinct table keys, strictly lengthening paths along children edges,
and a sound path index). -/
theorem deleteInstance_spec (tm : TreeManager) (g : String)
    (hnd : StoreKeysNodup tm.nodes) (hD : DepthOK tm.nodes)
    (hI : IdxOK tm.nodes tm.pathIndex) :
    (alistLookup tm.nodes g = none → deleteInstance tm g = (none, tm)) ∧
    ∀ n, alistLookup tm.nodes g = some n →
      (deleteInstance tm g).1 =
        some { n with children := [], parent := none } ∧
      (∀ pg p, n.parent = some pg → alistLookup tm.nodes pg = some p →
        g ∈ p.children →
        alistLookup (deleteInstance tm g).2.nodes pg =
          some { p with children := p.children.erase g }) ∧
      (∀ h, Reach tm.nodes g h →
        alistLookup (deleteInstance tm g).2.nodes h = none ∧
        ∀ e ∈ (deleteInstance tm g).2.pathIndex, h ∉ e.2) ∧
      (∀ h nh, alistLookup tm.nodes h = some nh → ¬ Reach tm.nodes g h →
        n.parent ≠ some h →
        alistLookup (deleteInstance tm g).2.nodes h = some nh) := by
  constructor
  · intro h
    simp [deleteInstance, h]
  intro n hg
  have hfst : (deleteInstance tm g).1 =
      some { n with children := [], parent := none } := by
    simp [deleteInstance, hg]
  have hnodes : (deleteInstance tm g).2.nodes =
      (deleteLoop [g] (detachParent tm.nodes g n) tm.pathIndex).1 := by
    simp [deleteInstance, hg]
  have hidx : (deleteInstance tm g).2.pathIndex =
      (deleteLoop [g] (detachParent tm.nodes g n) tm.pathIndex).2 := by
    simp [deleteInstance, hg]
  have hDcases : detachParent tm.nodes g n = tm.nodes ∨
      ∃ pg p, n.parent = some pg ∧ alistLookup tm.nodes pg = some p ∧
        g ∈ p.children ∧
        detachParent tm.nodes g n =
          alistSet tm.nodes pg { p with children := p.children.erase g } := by
    cases hpar : n.parent with
    | none =>
      left
      simp [detachParent, hpar]
    | some pg =>
      cases hplk : alistLookup tm.nodes pg with
      | none =>
        left
        simp [detachParent, hpar, hplk]
      | some p =>
        by_cases hgp : g ∈ p.children
        · exact Or.inr ⟨pg, p, rfl, hplk, hgp, by simp [detachParent, hpar, hplk]⟩
        · left
          have he : p.children.erase g = p.children := List.erase_of_not_mem hgp
          simp only [detachParent, hpar, hplk, he]
          exact alistSet_lookup_eq hplk
  obtain ⟨hDnd, hDdep, hDidx, hDg, hto, hfrom⟩ :
      StoreKeysNodup (detachParent tm.nodes g n) ∧
      DepthOK (detachParent tm.nodes g n) ∧
      IdxOK (detachParent tm.nodes g n) tm.pathIndex ∧
      alistLookup (detachParent tm.nodes g n) g = some n ∧
      (∀ h, Reach tm.nodes g h → Reach (detachParent tm.nodes g n) g h) ∧
      (∀ x h, Reach (detachParent tm.nodes g n) x h → Reach tm.nodes x h) := by
    rcases hDcases with hDeq | ⟨pg, p, hpar, hplk, hgp, hDeq⟩
    · rw [hDeq]
      exact ⟨hnd, hD, hI, hg, fun h hr => hr, fun x h hr => hr⟩
    · rw [hDeq]
      have hdepth := depthOK_edge hD hplk hgp hg
      have hgpg : g ≠ pg := by
        intro he
        subst he
        have hpn : p = n := by
          rw [hplk] at hg
          injection hg
        subst hpn
        omega
      refine ⟨nodup_keys_alistSet _ _ _ hnd,
        depthOK_alistSet_shrink hD hplk
          (fun c hc => List.mem_of_mem_erase hc) rfl, ?_, ?_, ?_, ?_⟩
      · obtain ⟨hknd, hbuck⟩ := hI
        refine ⟨hknd, ?_⟩
        intro e he
        refine ⟨(hbuck e he).1, ?_⟩
        intro g' hg'
        rcases (hbuck e he).2 g' hg' with ⟨f, hf, hfg, hfp⟩
        by_cases hfpg : f.1 = pg
        · have hfp2 : f.2 = p := alist_uniq_val hnd hplk f hf hfpg
          refine ⟨(pg, { p with children := p.children.erase g }),
            mem_alistSet_self _ _ _, ?_, ?_⟩
          · rw [← hfpg, hfg]
          · show p.path = e.1
            rw [← hfp, hfp2]
        · exact ⟨f, mem_alistSet_of_ne hf hfpg, hfg, hfp⟩
      · rw [alistLookup_set_other _ _ _ _ (fun he => hgpg he.symm)]
        exact hg
      · intro h hr
        exact reach_preserve_above hD hplk
          (fun y hy => alistLookup_set_other _ _ _ _
            (fun he => hy he.symm)) hr n hg hdepth
      · intro x h hr
        refine reach_mono ?_ hr
        intro y n' hy
        by_cases hypg : y = pg
        · subst hypg
          rw [alistLookup_set_self] at hy
          injection hy with hy
          refine ⟨p, hplk, ?_⟩
          rw [← hy]
          exact fun c hc => List.mem_of_mem_erase hc
        · rw [alistLookup_set_other _ _ _ _
            (fun he => hypg he.symm)] at hy
          exact ⟨n', hy, fun c hc => hc⟩
  refine ⟨hfst, ?_, ?_, ?_⟩
  · intro pg p hpar hplk hgp
    have hDeq : detachParent tm.nodes g n =
        alistSet tm.nodes pg { p with children := p.children.erase g } := by
      simp [detachParent, hpar, hplk]
    have hlkD : alistLookup (detachParent tm.nodes g n) pg =
        some { p with children := p.children.erase g } := by
      rw [hDeq]
      exact alistLookup_set_self _ _ _
    have hnr : ¬ Reach (detachParent tm.nodes g n) g pg := by
      intro hr
      have hr' := hfrom g pg hr
      have hle := reach_depth_le hD hr' n p hg hplk
      have hlt := depthOK_edge hD hplk hgp hg
      omega
    rw [hnodes]
    refine deleteLoop_frame [g] _ tm.pathIndex hDnd pg _ hlkD ?_
    intro g' hg'
    simp only [List.mem_singleton] at hg'
    subst hg'
    exact hnr
  · intro h hr
    have hreach : Reach (detachParent tm.nodes g n) g h := hto h hr
    have hnone := deleteLoop_reach_none [g] (detachParent tm.nodes g n)
      tm.pathIndex hDnd hDdep h ⟨g, List.mem_singleton.mpr rfl, hreach⟩
    constructor
    · rw [hnodes]
      exact hnone
    · intro e he hin
      rw [hidx] at he
      obtain ⟨hfnd, hfknd, hfbuck⟩ :=
        deleteLoop_inv [g] (detachParent tm.nodes g n) tm.pathIndex hDnd hDidx
      rcases (hfbuck e he).2 h hin with ⟨f, hf, hfh, _⟩
      obtain ⟨f₁, f₂⟩ := f
      simp only at hfh
      subst hfh
      have hl := alistLookup_of_mem_nodup _ f₁ f₂ hfnd hf
      rw [hnone] at hl
      cases hl
  · intro h nh hlkh hnr hpar
    have hlkD : alistLookup (detachParent tm.nodes g n) h = some nh := by
      rcases hDcases with hDeq | ⟨pg, p, hpar', hplk, hgp, hDeq⟩
      · rw [hDeq]
        exact hlkh
      · rw [hDeq]
        have hhpg : h ≠ pg := by
          intro he
          subst he
          exact hpar hpar'
        rw [alistLookup_set_other _ _ _ _ (fun he => hhpg he.symm)]
        exact hlkh
    rw [hnodes]
    refine deleteLoop_frame [g] _ tm.pathIndex hDnd h nh hlkD ?_
    intro g' hg'
    simp only [List.mem_singleton] at hg'
    subst hg'
    intro hr
    exact hnr (hfrom _ h hr)

instance (s : List (String × TreeNode)) : Decidable (StoreKeysNodup s) :=
  inferInstanceAs (Decidable ((s.map Prod.fst).Nodup))

instance (s : List (String × TreeNode)) : Decidable (DepthOK s) :=
  inferInstanceAs (Decidable (∀ e ∈ s, ∀ c ∈ e.2.children, ∀ f ∈ s,
    f.1 = c → e.2.path.length < f.2.path.length))

instance (s : List (String × TreeNode))
    (idx : List (Path × List String)) : Decidable (IdxOK s idx) :=
  inferInstanceAs (Decidable ((idx.map Prod.fst).Nodup ∧
    ∀ e ∈ idx, e.2.Nodup ∧ ∀ g ∈ e.2, ∃ f ∈ s, f.1 = g ∧ f.2.path = e.1))

/-- A three-node manager (a folder with one module child plus one
unrelated folder) used to exercise `deleteInstance`. -/
def tmDel : TreeManager :=
  { nodes := [
      ("r", { guid := "r", className := "Folder", name := "A"
              path := ["A"], parentGuid := some none, source := none
              children := ["c"], parent := none }),
      ("c", { guid := "c", className := "ModuleScript", name := "B"
              path := ["A", "B"], parentGuid := some (some "r")
              source := some "x", children := [], parent := some "r" }),
      ("u", { guid := "u", className := "Folder", name := "U"
              path := ["U"], parentGuid := some none, source := none
              children := [], parent := none })]
    pathIndex := [(["A"], ["r"]), (["A", "B"], ["c"]), (["U"], ["u"])]
    root := none }

theorem deleteInstance_spec_witness :
    StoreKeysNodup tmDel.nodes ∧ DepthOK tmDel.nodes ∧
    IdxOK tmDel.nodes tmDel.pathIndex ∧
    ((alistLookup tmDel.nodes "c" = none →
        deleteInstance tmDel "c" = (none, tmDel)) ∧
     ∀ n, alistLookup tmDel.nodes "c" = some n →
       (deleteInstance tmDel "c").1 =
         some { n with children := [], parent := none } ∧
       (∀ pg p, n.parent = some pg → alistLookup tmDel.nodes pg = some p →
         "c" ∈ p.children →
         alistLookup (deleteInstance tmDel "c").2.nodes pg =
           some { p with children := p.children.erase "c" }) ∧
       (∀ h, Reach tmDel.nodes "c" h →
         alistLookup (deleteInstance tmDel "c").2.nodes h = none ∧
         ∀ e ∈ (deleteInstance tmDel "c").2.pathIndex, h ∉ e.2) ∧
       (∀ h nh, alistLookup tmDel.nodes h = some nh →
         ¬ Reach tmDel.nodes "c" h → n.parent ≠ some h →
         alistLookup (deleteInstance tmDel "c").2.nodes h = some nh)) :=
  ⟨by decide, by decide, by decide,
    deleteInstance_spec tmDel "c" (by decide) (by decide) (by decide)⟩

/-- The parent guid `updateInstance` reads from the current state: the
live parent reference when there is one, else the stored
`parentGuid`. -/
def uiCurrentParentGuid (existing : TreeNode) : Option String :=
  match existing.parent with
  | some pr => some pr
  | none => existing.parentGuid.join

/-- The parent guid after the update: the message's hint when it
carries one, else the current one. -/
def uiNextParentGuid (inst : InstanceData) (existing : TreeNode) :
    Option String :=
  if inst.parentGuid.isSome then inst.parentGuid.join
  else uiCurrentParentGuid existing

/-- The source after the update: the message's source when it carries
one, else the current source. -/
def uiNextSource (inst : InstanceData) (existing : TreeNode) :
    Option String :=
  match inst.source with
  | some s => some s
  | none => existing.source

/-- The in-place field replacement `updateInstance` performs on an
existing node. -/
def uiUpdatedNode (inst : InstanceData) (existing : TreeNode) : TreeNode :=
  { existing with
    className := inst.className
    name := inst.name
    path := inst.path
    parentGuid := some (uiNextParentGuid inst existing)
    source := uiNextSource inst existing }

/-- Step 1 of `updateInstance` on an existing node: unregister the
subtree from the path index when the path changed. -/
def uiTm1 (tm : TreeManager) (inst : InstanceData) (existing : TreeNode) :
    TreeManager :=
  if ¬ pathsEqual existing.path inst.path then
    { tm with pathIndex :=
        (indexWalk true (tmFuel tm) [inst.guid] tm.nodes tm.pathIndex) }
  else tm

/-- Step 2: write the replaced fields into the node table. -/
def uiTm2 (tm : TreeManager) (inst : InstanceData) (existing : TreeNode) :
    TreeManager :=
  { uiTm1 tm inst existing with
    nodes := (alistSet (uiTm1 tm inst existing).nodes inst.guid
      (uiUpdatedNode inst existing)) }

/-- Step 3a: the reparented manager. -/
def uiTmr (tm : TreeManager) (inst : InstanceData) (existing : TreeNode) :
    TreeManager :=
  reparentNode (uiTm2 tm inst existing) inst.guid inst.path
    (uiNextParentGuid inst existing)

/-- Step 3b: descendant paths recalculated. -/
def uiTmq (tm : TreeManager) (inst : InstanceData) (existing : TreeNode) :
    TreeManager :=
  { uiTmr tm inst existing with
    nodes := (recalcChildPaths (tmFuel (uiTmr tm inst existing))
      (uiUpdatedNode inst existing).children
      (uiTmr tm inst existing).nodes) }

/-- The final manager `updateInstance` produces for an existing node:
steps 3a/3b and re-registration run only when path, name or parent
changed. -/
def uiTm3 (tm : TreeManager) (inst : InstanceData) (existing : TreeNode) :
    TreeManager :=
  if (¬ pathsEqual existing.path inst.path) ∨ existing.name ≠ inst.name ∨
      (inst.parentGuid.isSome ∧
        uiNextParentGuid inst existing ≠ uiCurrentParentGuid existing) then
    { uiTmq tm inst existing with
      pathIndex :=
        (indexWalk false (tmFuel (uiTmq tm inst existing)) [inst.guid]
          (uiTmq tm inst existing).nodes
          (uiTmq tm inst existing).pathIndex) }
  else uiTm2 tm inst existing

/-- On an existing guid, the manager `updateInstance` returns is the
staged pipeline `uiTm3`. -/
theorem updateInstance_snd (tm : TreeManager) (inst : InstanceData)
    (existing : TreeNode)
    (hex : alistLookup tm.nodes inst.guid = some existing) :
    (updateInstance tm inst).2 = uiTm3 tm inst existing := by
  simp only [updateInstance, hex]
  rfl

/-- Detaching from the old parent keeps the node's own class, name,
path and source. -/
theorem rpDetach_core (tm : TreeManager) (guid : String) (node : TreeNode)
    (hn : alistLookup tm.nodes guid = some node) :
    ∃ w, alistLookup (rpDetach tm guid node).nodes guid = some w ∧
      w.className = node.className ∧ w.name = node.name ∧
      w.path = node.path ∧ w.source = node.source := by
  cases hpar : node.parent with
  | none => exact ⟨node, by simp [rpDetach, hpar, hn], rfl, rfl, rfl, rfl⟩
  | some opg =>
    cases hlk : alistLookup tm.nodes opg with
    | none => exact ⟨node, by simp [rpDetach, hpar, hlk, hn], rfl, rfl, rfl, rfl⟩
    | some op =>
      by_cases hog : opg = guid
      · have hlk2 : alistLookup tm.nodes guid = some op := by
          rw [← hog]
          exact hlk
        have hop : node = op := by
          rw [hn] at hlk2
          injection hlk2
        refine ⟨{ node with children := node.children.erase guid },
          ?_, rfl, rfl, rfl, rfl⟩
        simp only [rpDetach, hpar, hlk]
        rw [hog, ← hop, hpar, hog]
        exact alistLookup_set_self _ _ _
      · refine ⟨node, ?_, rfl, rfl, rfl, rfl⟩
        simp only [rpDetach, hpar, hlk]
        rw [alistLookup_set_other _ _ _ _ hog]
        exact hn

/-- Resolving the new parent never touches the entry of a non-root
guid. -/
theorem rpResolve_lookup (tm₁ : TreeManager) (path : Path)
    (pguid : Option String) (guid : String) (hroot : guid ≠ "root")
    {w : TreeNode} (hw : alistLookup tm₁.nodes guid = some w) :
    alistLookup (rpResolve tm₁ path pguid).1.nodes guid = some w := by
  unfold rpResolve
  cases rpViaGuid tm₁ pguid with
  | some pg => exact hw
  | none =>
    by_cases hlen : path.length = 1
    · rw [if_pos hlen]
      cases tm₁.root with
      | some r => exact hw
      | none =>
        show alistLookup (alistSet tm₁.nodes "root" syntheticRoot) guid =
          some w
        rw [alistLookup_set_other _ _ _ _ (fun he => hroot he.symm)]
        exact hw
    · rw [if_neg hlen]
      exact hw

/-- Attaching under the new parent keeps the node's own class, name,
path and source. -/
theorem rpAttach_core (tm₂ : TreeManager) (guid pg : String) {w : TreeNode}
    (hw : alistLookup tm₂.nodes guid = some w) :
    ∃ v, alistLookup (rpAttach tm₂ guid pg).nodes guid = some v ∧
      v.className = w.className ∧ v.name = w.name ∧
      v.path = w.path ∧ v.source = w.source := by
  cases hpl : alistLookup tm₂.nodes pg with
  | none =>
    simp only [rpAttach, hpl]
    exact ⟨w, hw, rfl, rfl, rfl, rfl⟩
  | some p =>
    by_cases hpgg : pg = guid
    · have hpw : w = p := by
        rw [hpgg] at hpl
        rw [hw] at hpl
        injection hpl
      subst hpw
      have hS : alistLookup
          (alistSet tm₂.nodes pg { w with children := childAdd w.children guid })
          guid = some { w with children := childAdd w.children guid } := by
        rw [hpgg]
        exact alistLookup_set_self _ _ _
      simp only [rpAttach, hpl, hS]
      refine ⟨{ w with
        children := childAdd w.children guid
        parent := some pg
        parentGuid := some (some pg) }, ?_, rfl, rfl, rfl, rfl⟩
      exact alistLookup_set_self _ _ _
    · have hS : alistLookup
          (alistSet tm₂.nodes pg { p with children := childAdd p.children guid })
          guid = some w := by
        rw [alistLookup_set_other _ _ _ _ hpgg]
        exact hw
      simp only [rpAttach, hpl, hS]
      refine ⟨{ w with
        parent := some pg
        parentGuid := some (some pg) }, ?_, rfl, rfl, rfl, rfl⟩
      exact alistLookup_set_self _ _ _

/-- `reparentNode` keeps the class, name, path and source of any
non-root guid present in the table. -/
theorem reparentNode_core (tm : TreeManager) (guid : String) (path : Path)
    (pguid : Option String) (hroot : guid ≠ "root") {node : TreeNode}
    (hn : alistLookup tm.nodes guid = some node) :
    ∃ w, alistLookup (reparentNode tm guid path pguid).nodes guid = some w ∧
      w.className = node.className ∧ w.name = node.name ∧
      w.path = node.path ∧ w.source = node.source := by
  unfold reparentNode
  simp only [hn]
  obtain ⟨w₁, hw₁, hc₁, hn₁, hp₁, hs₁⟩ := rpDetach_core tm guid node hn
  have hres := rpResolve_lookup (rpDetach tm guid node) path pguid guid hroot hw₁
  cases hrp : rpResolve (rpDetach tm guid node) path pguid with
  | mk tm₂ opt =>
    rw [hrp] at hres
    cases opt with
    | none => exact ⟨w₁, hres, hc₁, hn₁, hp₁, hs₁⟩
    | some pg =>
      obtain ⟨v, hv, hc₂, hn₂, hp₂, hs₂⟩ := rpAttach_core tm₂ guid pg hres
      exact ⟨v, hv, hc₂.trans hc₁, hn₂.trans hn₁, hp₂.trans hp₁, hs₂.trans hs₁⟩

/-- One path-recalculation write does not touch other keys. -/
theorem recalcStep_other {s : List (String × TreeNode)} {c : String}
    {cn : TreeNode} {y : String} (hy : y ≠ c) :
    alistLookup (recalcStep s c cn) y = alistLookup s y := by
  cases hpar : cn.parent with
  | none => simp [recalcStep, hpar]
  | some pg =>
    cases hpg : alistLookup s pg with
    | none => simp [recalcStep, hpar, hpg]
    | some pn =>
      simp only [recalcStep, hpar, hpg]
      exact alistLookup_set_other _ _ _ _ (fun he => hy he.symm)

/-- One path-recalculation write keeps the table entrywise below the
original (it only rewrites a path). -/
theorem recalcStep_sub {s : List (String × TreeNode)} {c : String}
    {cn : TreeNode} (hcl : alistLookup s c = some cn) :
    ∀ y n', alistLookup (recalcStep s c cn) y = some n' →
      ∃ m, alistLookup s y = some m ∧ ∀ d ∈ n'.children, d ∈ m.children := by
  intro y n' hy
  by_cases hyc : y = c
  · subst hyc
    cases hpar : cn.parent with
    | none =>
      simp only [recalcStep, hpar] at hy
      exact ⟨n', hy, fun d hd => hd⟩
    | some pg =>
      cases hpg : alistLookup s pg with
      | none =>
        simp only [recalcStep, hpar, hpg] at hy
        exact ⟨n', hy, fun d hd => hd⟩
      | some pn =>
        simp only [recalcStep, hpar, hpg, alistLookup_set_self,
          Option.some.injEq] at hy
        refine ⟨cn, hcl, ?_⟩
        rw [← hy]
        exact fun d hd => hd
  · rw [recalcStep_other hyc] at hy
    exact ⟨n', hy, fun d hd => hd⟩

/-- `recalculateChildPaths` leaves every entry not reachable from the
queue untouched. -/
theorem recalc_lookup_frame :
    ∀ (fuel : Nat) (queue : List String) (s : List (String × TreeNode))
      (x : String), (∀ q ∈ queue, ¬ Reach s q x) →
      alistLookup (recalcChildPaths fuel queue s) x = alistLookup s x := by
  intro fuel
  induction fuel with
  | zero =>
    intro queue s x _
    cases queue <;> rfl
  | succ f ih =>
    intro queue s x hq
    cases queue with
    | nil => rfl
    | cons c rest =>
      simp only [recalcChildPaths]
      cases hcl : alistLookup s c with
      | none =>
        exact ih rest s x fun q hq' => hq q (List.mem_cons_of_mem _ hq')
      | some cn =>
        have hxc : ¬ Reach s c x := hq c (List.mem_cons_self _ _)
        have hstep : ∀ q ∈ rest ++ cn.children,
            ¬ Reach (recalcStep s c cn) q x := by
          intro q hq' hr
          have hr' : Reach s q x :=
            reach_mono (fun y n' h => recalcStep_sub hcl y n' h) hr
          rcases List.mem_append.mp hq' with h | h
          · exact hq q (List.mem_cons_of_mem _ h) hr'
          · exact hxc (Reach.step cn hcl h hr')
        rw [ih (rest ++ cn.children) (recalcStep s c cn) x hstep]
        apply recalcStep_other
        intro he
        subst he
        exact hxc (Reach.refl _)

/-- C7.  For an existing node, `updateInstance` replaces className,
name and path from the message, and replaces the source text exactly
when the message carries a `source` field — when `instance.source` is
undefined the stored source is kept.  (`"root"` is the guid reserved
for the synthetic root; the reachability hypothesis says the node is
not its own descendant, which is the spec's acyclicity invariant.) -/
theorem updateInstance_existing_fields (tm : TreeManager)
    (inst : InstanceData) (existing : TreeNode)
    (hex : alistLookup tm.nodes inst.guid = some existing)
    (hroot : inst.guid ≠ "root")
    (hsafe : ∀ c ∈ (uiUpdatedNode inst existing).children,
      ¬ Reach (uiTmr tm inst existing).nodes c inst.guid) :
    ∃ w, alistLookup (updateInstance tm inst).2.nodes inst.guid = some w ∧
      w.className = inst.className ∧ w.name = inst.name ∧
      w.path = inst.path ∧ w.source = uiNextSource inst existing ∧
      (∀ s, inst.source = some s → w.source = some s) ∧
      (inst.source = none → w.source = existing.source) := by
  rw [updateInstance_snd tm inst existing hex]
  have h2 : alistLookup (uiTm2 tm inst existing).nodes inst.guid =
      some (uiUpdatedNode inst existing) := by
    show alistLookup (alistSet (uiTm1 tm inst existing).nodes inst.guid
      (uiUpdatedNode inst existing)) inst.guid = _
    exact alistLookup_set_self _ _ _
  unfold uiTm3
  by_cases hch : (¬ pathsEqual existing.path inst.path) ∨
      existing.name ≠ inst.name ∨
      (inst.parentGuid.isSome ∧
        uiNextParentGuid inst existing ≠ uiCurrentParentGuid existing)
  · rw [if_pos hch]
    obtain ⟨w, hw, hc, hn, hp, hs⟩ := reparentNode_core
      (uiTm2 tm inst existing) inst.guid inst.path
      (uiNextParentGuid inst existing) hroot h2
    refine ⟨w, ?_, hc, hn, hp, hs, ?_, ?_⟩
    · show alistLookup (recalcChildPaths (tmFuel (uiTmr tm inst existing))
        (uiUpdatedNode inst existing).children
        (uiTmr tm inst existing).nodes) inst.guid = some w
      rw [recalc_lookup_frame _ _ _ _ hsafe]
      exact hw
    · intro s hsome
      rw [hs]
      show uiNextSource inst existing = some s
      simp [uiNextSource, hsome]
    · intro hnone
      rw [hs]
      show uiNextSource inst existing = existing.source
      simp [uiNextSource, hnone]
  · rw [if_neg hch]
    refine ⟨uiUpdatedNode inst existing, h2, rfl, rfl, rfl, rfl, ?_, ?_⟩
    · intro s hsome
      show uiNextSource inst existing = some s
      simp [uiNextSource, hsome]
    · intro hnone
      show uiNextSource inst existing = existing.source
      simp [uiNextSource, hnone]

/-- A one-node manager used to exercise `updateInstance` on an
existing node. -/
def existW7 : TreeNode :=
  { guid := "n1", className := "Folder", name := "Old", path := ["Old"]
    parentGuid := some none, source := none, children := []
    parent := none }

def tmW7 : TreeManager :=
  { nodes := [("n1", existW7)], pathIndex := [(["Old"], ["n1"])]
    root := none }

/-- An update message for the node of `tmW7` that renames it, moves it
and carries a source. -/
def instW7 : InstanceData :=
  { guid := "n1", className := "ModuleScript", name := "New"
    path := ["New"], parentGuid := none, source := some "return 1" }

theorem updateInstance_existing_fields_witness :
    alistLookup tmW7.nodes instW7.guid = some existW7 ∧
    instW7.guid ≠ "root" ∧
    (∀ c ∈ (uiUpdatedNode instW7 existW7).children,
      ¬ Reach (uiTmr tmW7 instW7 existW7).nodes c instW7.guid) ∧
    (∃ w, alistLookup (updateInstance tmW7 instW7).2.nodes instW7.guid =
        some w ∧
      w.className = instW7.className ∧ w.name = instW7.name ∧
      w.path = instW7.path ∧ w.source = uiNextSource instW7 existW7 ∧
      (∀ s, instW7.source = some s → w.source = some s) ∧
      (instW7.source = none → w.source = existW7.source)) :=
  ⟨by decide, by decide, by simp [uiUpdatedNode, existW7],
    updateInstance_existing_fields tmW7 instW7 existW7 (by decide) (by decide)
      (by simp [uiUpdatedNode, existW7])⟩

end Azul
